import Mathlib

/-!
Verification of the open-addressing string hash table in src/hashtable/ht.c.

The C code is shallowly embedded: keys (C strings) are lists of byte values,
values (void pointers) are naturals with 0 modelling NULL, the entry array is
a list of slots, and 64-bit unsigned arithmetic is explicit modular
arithmetic on naturals.  The probe loops of ht_get and ht_set_entry are
written with an explicit fuel argument equal to the capacity; a result of
none models the loop failing to finish within capacity steps, so termination
bounded by the capacity is a provable statement rather than an assumption.
Allocation outcomes (calloc for growth, strdup for key duplication) are
boolean oracle parameters.
-/

namespace HtC

set_option maxRecDepth 4000

/-- FNV-1a 64-bit offset basis, the FNV_OFFSET constant of ht.c. -/
def FNV_OFFSET : Nat := 14695981039346656037

/-- FNV-1a 64-bit prime, the FNV_PRIME constant of ht.c. -/
def FNV_PRIME : Nat := 1099511628211

/-- Size of the uint64_t and size_t value domain. -/
def U64 : Nat := 2 ^ 64

/-- One slot of the entry store (struct ht_entry): a key pointer, where none
models NULL (unoccupied slot), and a value pointer modelled as a natural
number, with 0 modelling NULL. -/
structure ht_entry where
  key : Option (List Nat)
  value : Nat
deriving DecidableEq, Repr

/-- Zeroed slot, as produced by calloc. -/
def emptyEntry : ht_entry := ⟨none, 0⟩

/-- The hash table (struct ht): entry array, its capacity and the number of
occupied slots. -/
structure ht where
  entries : List ht_entry
  capacity : Nat
  length : Nat
deriving DecidableEq, Repr

/-- The INITIAL_CAPACITY constant of ht.c. -/
def INITIAL_CAPACITY : Nat := 16

/-- hash_key of ht.c: FNV-1a over the bytes of the key, with wrapping 64-bit
arithmetic.  The unsigned char cast is the mod 256. -/
def hash_key (key : List Nat) : Nat :=
  key.foldl (fun h b => ((h ^^^ (b % 256)) * FNV_PRIME) % U64) FNV_OFFSET

/-- ht_create of ht.c, with malloc and calloc assumed to succeed: capacity
INITIAL_CAPACITY, length 0, all slots zeroed. -/
def ht_create : ht :=
  { entries := List.replicate INITIAL_CAPACITY emptyEntry
    capacity := INITIAL_CAPACITY
    length := 0 }

/-- One probe step: index++, wrapping to 0 when capacity is reached. -/
def wrapNext (capacity index : Nat) : Nat :=
  if index + 1 ≥ capacity then 0 else index + 1

/-- Start slot of a probe sequence: hash AND (capacity - 1). -/
def homeIndex (capacity : Nat) (key : List Nat) : Nat :=
  hash_key key &&& (capacity - 1)

/-- Probe loop of ht_get.  The fuel bounds the number of inspected slots;
none means the loop did not finish within the fuel, some 0 models returning
NULL (not found), and some v models returning the stored value v. -/
def ht_get_loop (entries : List ht_entry) (capacity : Nat) (key : List Nat) :
    Nat → Nat → Option Nat
  | 0, _ => none
  | fuel + 1, index =>
    match (entries.getD index emptyEntry).key with
    | none => some 0
    | some k =>
      if key = k then some (entries.getD index emptyEntry).value
      else ht_get_loop entries capacity key fuel (wrapNext capacity index)

/-- ht_get of ht.c: NULL table or key returns NULL; otherwise probe from the
home slot.  The fuel is the capacity: a full traversal of the array. -/
def ht_get (table : Option ht) (key : Option (List Nat)) : Option Nat :=
  match table, key with
  | some t, some k =>
      ht_get_loop t.entries t.capacity k t.capacity (homeIndex t.capacity k)
  | _, _ => some 0

/-- Result of ht_set_entry: the updated entry array, the updated value of
*plength, and the returned key pointer (none models returning NULL). -/
structure SetEntryOut where
  entries : List ht_entry
  length : Nat
  ret : Option (List Nat)
deriving DecidableEq, Repr

/-- Probe loop of ht_set_entry.  plength true models a non-NULL plength
pointer (a fresh insert duplicates the key and increments the length);
strdupOk tells whether strdup succeeds.  none means the loop did not finish
within the fuel. -/
def ht_set_entry_loop (key : List Nat) (value : Nat) (strdupOk plength : Bool)
    (entries : List ht_entry) (capacity length : Nat) :
    Nat → Nat → Option SetEntryOut
  | 0, _ => none
  | fuel + 1, index =>
    match (entries.getD index emptyEntry).key with
    | some k =>
      if key = k then
        some ⟨entries.set index ⟨some k, value⟩, length, some k⟩
      else
        ht_set_entry_loop key value strdupOk plength entries capacity length
          fuel (wrapNext capacity index)
    | none =>
      if plength then
        if strdupOk then
          some ⟨entries.set index ⟨some key, value⟩, length + 1, some key⟩
        else some ⟨entries, length, none⟩
      else some ⟨entries.set index ⟨some key, value⟩, length, some key⟩

/-- ht_set_entry of ht.c: probe from the home slot with fuel equal to the
capacity. -/
def ht_set_entry (entries : List ht_entry) (capacity : Nat) (key : List Nat)
    (value : Nat) (plength : Bool) (length : Nat) (strdupOk : Bool) :
    Option SetEntryOut :=
  ht_set_entry_loop key value strdupOk plength entries capacity length
    capacity (homeIndex capacity key)

/-- Rehash loop of ht_expand: reinsert every occupied slot of the old store
into the new store, passing a NULL plength (no key duplication, no length
increment).  none propagates a probe loop that did not finish. -/
def ht_expand_loop (new_capacity : Nat) :
    List ht_entry → List ht_entry → Option (List ht_entry)
  | [], acc => some acc
  | e :: rest, acc =>
    match e.key with
    | none => ht_expand_loop new_capacity rest acc
    | some k =>
      match ht_set_entry acc new_capacity k e.value false 0 true with
      | none => none
      | some out => ht_expand_loop new_capacity rest out.entries

/-- ht_expand of ht.c: double the capacity, failing on size_t overflow;
allocate the new zeroed store (allocOk models calloc succeeding); rehash;
swap the stores.  some (false, t) is a failed expansion with the table left
untouched; some (true, t2) is success. -/
def ht_expand (allocOk : Bool) (t : ht) : Option (Bool × ht) :=
  let new_capacity := t.capacity * 2 % U64
  if new_capacity < t.capacity then some (false, t)
  else if allocOk then
    match ht_expand_loop new_capacity t.entries
        (List.replicate new_capacity emptyEntry) with
    | none => none
    | some new_entries => some (true, ⟨new_entries, new_capacity, t.length⟩)
  else some (false, t)

/-- ht_set of ht.c.  Arguments are option-wrapped to model NULL table and
key pointers; a 0 value models a NULL value pointer.  The result pairs the
table state after the call with the returned key pointer; the outer none
models a probe loop that did not finish. -/
def ht_set (allocOk strdupOk : Bool) (table : Option ht)
    (key : Option (List Nat)) (value : Nat) :
    Option (Option ht × Option (List Nat)) :=
  match table, key with
  | none, _ => some (none, none)
  | some t, none => some (some t, none)
  | some t, some k =>
    if value = 0 then some (some t, none)
    else
      match (if t.length ≥ t.capacity / 2 then ht_expand allocOk t
             else some (true, t)) with
      | none => none
      | some (false, t1) => some (some t1, none)
      | some (true, t1) =>
        match ht_set_entry t1.entries t1.capacity k value true t1.length
            strdupOk with
        | none => none
        | some out => some (some ⟨out.entries, t1.capacity, out.length⟩, out.ret)

/-- ht_length of ht.c: 0 for a NULL table. -/
def ht_length : Option ht → Nat
  | none => 0
  | some t => t.length

/-- The iterator (struct hti): table pointer, scan index, and the key and
value of the current entry. -/
structure hti where
  _table : Option ht
  _index : Nat
  key : Option (List Nat)
  value : Nat
deriving DecidableEq, Repr

/-- ht_iterator of ht.c: cursor at index 0 with cleared key and value. -/
def ht_iterator (table : Option ht) : hti :=
  { _table := table, _index := 0, key := none, value := 0 }

/-- Outcome of the scan loop of ht_next: final index, key and value written
to the cursor, and the boolean return value. -/
structure NextResult where
  index : Nat
  key : Option (List Nat)
  value : Nat
  found : Bool
deriving DecidableEq, Repr

/-- Scan loop of ht_next: advance through slots from the given index,
stopping at the first occupied one; at the end of the array report
exhaustion with cleared key and value.  The loop increments the index once
per iteration and stops at the capacity, so it runs exactly
capacity - index times; that count is passed as structural fuel, with the
fuel-exhausted case coinciding with the end-of-array case. -/
def ht_next_loop (t : ht) : Nat → Nat → NextResult
  | 0, index => ⟨index, none, 0, false⟩
  | fuel + 1, index =>
    if index < t.capacity then
      match (t.entries.getD index emptyEntry).key with
      | some k =>
        ⟨index + 1, some k, (t.entries.getD index emptyEntry).value, true⟩
      | none => ht_next_loop t fuel (index + 1)
    else ⟨index, none, 0, false⟩

/-- ht_next of ht.c: false for a NULL cursor or a cursor with a NULL table,
otherwise run the scan loop and update the cursor. -/
def ht_next : Option hti → Option hti × Bool
  | none => (none, false)
  | some it =>
    match it._table with
    | none => (some it, false)
    | some t =>
      let r := ht_next_loop t (t.capacity - it._index) it._index
      (some { it with _index := r.index, key := r.key, value := r.value },
        r.found)

/-- Slot reached after s probe steps from the home slot. -/
def slotIdx (capacity home s : Nat) : Nat := (home + s) % capacity

/-- Number of probe steps from the home slot to slot i. -/
def probeDist (capacity home i : Nat) : Nat := (i + capacity - home) % capacity

/-- A slot holding a non-NULL key. -/
def occupiedSlot (entries : List ht_entry) (i : Nat) : Prop :=
  (entries.getD i emptyEntry).key ≠ none

instance (entries : List ht_entry) (i : Nat) :
    Decidable (occupiedSlot entries i) := by
  unfold occupiedSlot; infer_instance

/-- Home slot of the key stored at slot i (0 for an empty slot). -/
def homeOfSlot (capacity : Nat) (entries : List ht_entry) (i : Nat) : Nat :=
  match (entries.getD i emptyEntry).key with
  | none => 0
  | some k => homeIndex capacity k

/-- Probe distance from its home slot of the key stored at slot i (0 for an
empty slot). -/
def probeLen (capacity : Nat) (entries : List ht_entry) (i : Nat) : Nat :=
  match (entries.getD i emptyEntry).key with
  | none => 0
  | some k => probeDist capacity (homeIndex capacity k) i

/-- Linear-probing invariant: every stored key is reachable from its home
slot without crossing an empty slot. -/
def ProbeInv (capacity : Nat) (entries : List ht_entry) : Prop :=
  ∀ i, i < capacity → ∀ s, s < probeLen capacity entries i →
    occupiedSlot entries (slotIdx capacity (homeOfSlot capacity entries i) s)

/-- No key occurs in two distinct slots. -/
def NoDupKeys (entries : List ht_entry) : Prop :=
  ∀ i, i < entries.length → ∀ j, j < entries.length →
    (entries.getD i emptyEntry).key = none ∨ i = j ∨
    (entries.getD i emptyEntry).key ≠ (entries.getD j emptyEntry).key

/-- Number of occupied slots of an entry array. -/
def numOccupied (entries : List ht_entry) : Nat :=
  entries.countP (fun e => e.key.isSome)

/-- Slot i stores the pair (k, v). -/
def mapsTo (entries : List ht_entry) (k : List Nat) (v : Nat) : Prop :=
  ∃ i, i < entries.length ∧ entries.getD i emptyEntry = ⟨some k, v⟩

/-- The key k is stored in no slot. -/
def absentKey (entries : List ht_entry) (k : List Nat) : Prop :=
  ∀ i, i < entries.length → (entries.getD i emptyEntry).key ≠ some k

/-- Occupied (key, value) pairs of an entry array, in slot order. -/
def pairsOf (entries : List ht_entry) : List (List Nat × Nat) :=
  entries.filterMap fun e => e.key.map fun k => (k, e.value)

/-- Well-formedness of every table reachable through the public interface:
the capacity is the array length and a power of two of at least 16 that
fits in size_t, length counts the occupied slots, the load factor is at
most one half, the probe invariant holds and keys are unduplicated. -/
def Inv (t : ht) : Prop :=
  t.entries.length = t.capacity ∧
  (∃ m, 4 ≤ m ∧ t.capacity = 2 ^ m) ∧
  t.capacity < U64 ∧
  numOccupied t.entries = t.length ∧
  t.length * 2 ≤ t.capacity ∧
  ProbeInv t.capacity t.entries ∧
  NoDupKeys t.entries

/-- Tables reachable through the public interface: ht_create followed by any
sequence of ht_set calls (successful or not, with any allocation
outcomes). -/
inductive Reachable : ht → Prop
  | create : Reachable ht_create
  | set (t : ht) (aOk sOk : Bool) (k : Option (List Nat)) (v : Nat) (t' : ht)
      (r : Option (List Nat)) : Reachable t →
      ht_set aOk sOk (some t) k v = some (some t', r) → Reachable t'

/-- Repeated ht_next calls collecting the reported (key, value) pairs until
the iterator reports exhaustion (or the fuel runs out). -/
def drainIter : Nat → hti → List (List Nat × Nat)
  | 0, _ => []
  | fuel + 1, it =>
    match ht_next (some it) with
    | (some it2, true) =>
      match it2.key with
      | some k => (k, it2.value) :: drainIter fuel it2
      | none => []
    | _ => []

/-- Full iteration of a table: a fresh iterator drained with fuel equal to
the capacity (enough for every occupied slot). -/
def drainTable (t : ht) : List (List Nat × Nat) :=
  drainIter t.capacity (ht_iterator (some t))

/-- Sequential ht_set calls (with allocation succeeding); none as soon as
one call does not return a stored key. -/
def setAll : List (List Nat × Nat) → ht → Option ht
  | [], t => some t
  | (k, v) :: rest, t =>
    match ht_set true true (some t) (some k) v with
    | some (some t', some _) => setAll rest t'
    | _ => none

/-- Outcome of the probe loop of ht_set_entry when it stops at an empty
slot i: with a plength pointer and a working strdup the pair is stored and
the length bumped; with a failing strdup nothing is written and NULL is
returned; with a NULL plength (rehash) the pair is stored without a length
change. -/
def setEntryInsertOut (plength strdupOk : Bool) (entries : List ht_entry)
    (i : Nat) (key : List Nat) (value length : Nat) : SetEntryOut :=
  if plength then
    if strdupOk then ⟨entries.set i ⟨some key, value⟩, length + 1, some key⟩
    else ⟨entries, length, none⟩
  else ⟨entries.set i ⟨some key, value⟩, length, some key⟩

/-- Concrete table: ht_create after ht_set of key [97] to value 1
(the byte 97 hashes to slot 12 of 16). -/
def sampleT1 : ht :=
  ⟨(List.replicate 16 emptyEntry).set 12 ⟨some [97], 1⟩, 16, 1⟩

/-- Concrete table: sampleT1 after ht_set of key [97] to value 2 (update in
place). -/
def sampleT2 : ht :=
  ⟨(List.replicate 16 emptyEntry).set 12 ⟨some [97], 2⟩, 16, 1⟩

/-- Concrete table: the expansion of sampleT1 to capacity 32 (the byte 97
hashes to slot 12 of 32 as well). -/
def sampleT1x32 : ht :=
  ⟨(List.replicate 32 emptyEntry).set 12 ⟨some [97], 1⟩, 32, 1⟩

/-- Concrete table: ht_create after setting [97] to 1 and [98] to 2
(slots 12 and 5 of 16). -/
def sampleT12 : ht :=
  ⟨((List.replicate 16 emptyEntry).set 12 ⟨some [97], 1⟩).set 5 ⟨some [98], 2⟩,
    16, 2⟩

/-- Concrete table at the growth threshold (length 8 of capacity 16), used
to exercise a failing expansion. -/
def sampleHalf : ht := ⟨List.replicate 16 emptyEntry, 16, 8⟩

instance (capacity : Nat) (entries : List ht_entry) :
    Decidable (ProbeInv capacity entries) := by
  unfold ProbeInv; infer_instance

instance (entries : List ht_entry) : Decidable (NoDupKeys entries) := by
  unfold NoDupKeys; infer_instance

instance (entries : List ht_entry) (k : List Nat) :
    Decidable (absentKey entries k) := by
  unfold absentKey; infer_instance

instance (entries : List ht_entry) (k : List Nat) (v : Nat) :
    Decidable (mapsTo entries k v) :=
  decidable_of_iff (ht_entry.mk (some k) v ∈ entries)
    (by
      rw [List.mem_iff_getElem]
      unfold mapsTo
      constructor
      · rintro ⟨i, h, hi⟩
        exact ⟨i, h, by rw [List.getD_eq_getElem _ _ h]; exact hi⟩
      · rintro ⟨i, h, hi⟩
        exact ⟨i, h, by rw [List.getD_eq_getElem _ _ h] at hi; exact hi⟩)

/-! Arithmetic of the probe sequence. -/

theorem slotIdx_lt (cap home s : Nat) (h : 0 < cap) : slotIdx cap home s < cap :=
  Nat.mod_lt _ h

theorem slotIdx_zero (cap home : Nat) (h : home < cap) : slotIdx cap home 0 = home := by
  unfold slotIdx
  simpa using Nat.mod_eq_of_lt h

theorem slotIdx_succ (cap home s : Nat) (h : 0 < cap) :
    slotIdx cap home (s + 1) = wrapNext cap (slotIdx cap home s) := by
  unfold slotIdx wrapNext
  have hp : (home + s) % cap < cap := Nat.mod_lt _ h
  have key : (home + (s + 1)) % cap = ((home + s) % cap + 1) % cap := by
    rw [Nat.mod_add_mod, Nat.add_assoc]
  by_cases hc : (home + s) % cap + 1 ≥ cap
  · have h2 : (home + s) % cap + 1 = cap := by omega
    rw [key, h2, Nat.mod_self]
    simp
  · rw [key, Nat.mod_eq_of_lt (by omega), if_neg hc]

theorem slotIdx_inj {cap home s s' : Nat} (hs : s < cap) (hs' : s' < cap)
    (h : slotIdx cap home s = slotIdx cap home s') : s = s' := by
  unfold slotIdx at h
  have hm : s ≡ s' [MOD cap] := Nat.ModEq.add_left_cancel' home h
  have : s % cap = s' % cap := hm
  rwa [Nat.mod_eq_of_lt hs, Nat.mod_eq_of_lt hs'] at this

theorem probeDist_lt (cap home i : Nat) (h : 0 < cap) : probeDist cap home i < cap :=
  Nat.mod_lt _ h

theorem slotIdx_probeDist (cap home i : Nat) (hhome : home < cap) (hi : i < cap) :
    slotIdx cap home (probeDist cap home i) = i := by
  unfold slotIdx probeDist
  rw [Nat.add_mod_mod]
  have h1 : home + (i + cap - home) = i + cap := by omega
  rw [h1, Nat.add_mod_right, Nat.mod_eq_of_lt hi]

theorem probeDist_slotIdx (cap home s : Nat) (hhome : home < cap) (hs : s < cap) :
    probeDist cap home (slotIdx cap home s) = s := by
  unfold slotIdx probeDist
  by_cases hc : home + s < cap
  · rw [Nat.mod_eq_of_lt hc]
    have h1 : home + s + cap - home = s + cap := by omega
    rw [h1, Nat.add_mod_right, Nat.mod_eq_of_lt hs]
  · have h2 : (home + s) % cap = home + s - cap := by
      rw [Nat.mod_eq_sub_mod (by omega), Nat.mod_eq_of_lt (by omega)]
    rw [h2]
    have h3 : home + s - cap + cap - home = s := by omega
    rw [h3, Nat.mod_eq_of_lt hs]

theorem homeIndex_lt (cap : Nat) (k : List Nat) (h : 0 < cap) :
    homeIndex cap k < cap := by
  unfold homeIndex
  have h2 : hash_key k &&& (cap - 1) ≤ cap - 1 := Nat.and_le_right
  omega

/-! Entry array accesses. -/

theorem getD_set_self {l : List ht_entry} {i : Nat} (e : ht_entry)
    (h : i < l.length) : (l.set i e).getD i emptyEntry = e := by
  have h2 : i < (l.set i e).length := by simpa using h
  rw [List.getD_eq_getElem _ _ h2]
  exact List.getElem_set_self _

theorem getD_set_ne {l : List ht_entry} {i j : Nat} (e : ht_entry)
    (hij : i ≠ j) : (l.set i e).getD j emptyEntry = l.getD j emptyEntry := by
  by_cases hj : j < l.length
  · have hj2 : j < (l.set i e).length := by simpa using hj
    rw [List.getD_eq_getElem _ _ hj2, List.getD_eq_getElem _ _ hj]
    exact List.getElem_set_ne hij _
  · rw [List.getD_eq_default _ _ (by simp only [List.length_set]; omega),
      List.getD_eq_default _ _ (by omega)]

theorem countP_set (p : ht_entry → Bool) (e : ht_entry) :
    ∀ (l : List ht_entry) (i : Nat), i < l.length →
      (l.set i e).countP p + (if p (l.getD i emptyEntry) then 1 else 0) =
        l.countP p + (if p e then 1 else 0) := by
  intro l
  induction l with
  | nil => intro i hi; simp at hi
  | cons a t ih =>
    intro i hi
    match i with
    | 0 =>
      simp only [List.set_cons_zero, List.countP_cons, List.getD_cons_zero]
      omega
    | Nat.succ j =>
      have hj : j < t.length := by simpa using hi
      simp only [List.set_cons_succ, List.countP_cons, List.getD_cons_succ]
      have := ih j hj
      omega

/-! Walks of the two probe loops.  In each lemma, d is the number of probe
steps from the home slot to the slot where the loop stops, every earlier
slot on the probe path is occupied by a non-matching key, and the fuel
accounting shows the loop finishes within capacity inspections. -/

theorem ht_get_loop_hit (entries : List ht_entry) (cap : Nat) (key : List Nat)
    (home d : Nat) (hcap : 0 < cap) (hd : d < cap)
    (hhit : (entries.getD (slotIdx cap home d) emptyEntry).key = some key)
    (hbefore : ∀ s, s < d → ∃ k2,
      (entries.getD (slotIdx cap home s) emptyEntry).key = some k2 ∧ key ≠ k2) :
    ∀ fuel s, s ≤ d → d - s < fuel →
      ht_get_loop entries cap key fuel (slotIdx cap home s) =
        some (entries.getD (slotIdx cap home d) emptyEntry).value := by
  intro fuel
  induction fuel with
  | zero => intro s hs hf; omega
  | succ f ih =>
    intro s hs hf
    by_cases hsd : s = d
    · subst hsd
      simp only [ht_get_loop, hhit]
      rw [if_true]
    · have hsd2 : s < d := by omega
      obtain ⟨k2, hk2, hne⟩ := hbefore s hsd2
      simp only [ht_get_loop, hk2, if_neg hne]
      rw [← slotIdx_succ cap home s hcap]
      exact ih (s + 1) (by omega) (by omega)

theorem ht_get_loop_empty (entries : List ht_entry) (cap : Nat) (key : List Nat)
    (home d : Nat) (hcap : 0 < cap) (hd : d < cap)
    (hhit : (entries.getD (slotIdx cap home d) emptyEntry).key = none)
    (hbefore : ∀ s, s < d → ∃ k2,
      (entries.getD (slotIdx cap home s) emptyEntry).key = some k2 ∧ key ≠ k2) :
    ∀ fuel s, s ≤ d → d - s < fuel →
      ht_get_loop entries cap key fuel (slotIdx cap home s) = some 0 := by
  intro fuel
  induction fuel with
  | zero => intro s hs hf; omega
  | succ f ih =>
    intro s hs hf
    by_cases hsd : s = d
    · subst hsd
      simp only [ht_get_loop, hhit]
    · have hsd2 : s < d := by omega
      obtain ⟨k2, hk2, hne⟩ := hbefore s hsd2
      simp only [ht_get_loop, hk2, if_neg hne]
      rw [← slotIdx_succ cap home s hcap]
      exact ih (s + 1) (by omega) (by omega)

theorem ht_set_entry_loop_hit (key : List Nat) (value : Nat) (sOk pl : Bool)
    (entries : List ht_entry) (cap len : Nat) (home d : Nat)
    (hcap : 0 < cap) (hd : d < cap)
    (hhit : (entries.getD (slotIdx cap home d) emptyEntry).key = some key)
    (hbefore : ∀ s, s < d → ∃ k2,
      (entries.getD (slotIdx cap home s) emptyEntry).key = some k2 ∧ key ≠ k2) :
    ∀ fuel s, s ≤ d → d - s < fuel →
      ht_set_entry_loop key value sOk pl entries cap len fuel
          (slotIdx cap home s) =
        some ⟨entries.set (slotIdx cap home d) ⟨some key, value⟩, len, some key⟩ := by
  intro fuel
  induction fuel with
  | zero => intro s hs hf; omega
  | succ f ih =>
    intro s hs hf
    by_cases hsd : s = d
    · subst hsd
      simp only [ht_set_entry_loop, hhit]
      rw [if_true]
    · have hsd2 : s < d := by omega
      obtain ⟨k2, hk2, hne⟩ := hbefore s hsd2
      simp only [ht_set_entry_loop, hk2, if_neg hne]
      rw [← slotIdx_succ cap home s hcap]
      exact ih (s + 1) (by omega) (by omega)

theorem ht_set_entry_loop_empty (key : List Nat) (value : Nat) (sOk pl : Bool)
    (entries : List ht_entry) (cap len : Nat) (home d : Nat)
    (hcap : 0 < cap) (hd : d < cap)
    (hhit : (entries.getD (slotIdx cap home d) emptyEntry).key = none)
    (hbefore : ∀ s, s < d → ∃ k2,
      (entries.getD (slotIdx cap home s) emptyEntry).key = some k2 ∧ key ≠ k2) :
    ∀ fuel s, s ≤ d → d - s < fuel →
      ht_set_entry_loop key value sOk pl entries cap len fuel
          (slotIdx cap home s) =
        some (setEntryInsertOut pl sOk entries (slotIdx cap home d) key value len) := by
  intro fuel
  induction fuel with
  | zero => intro s hs hf; omega
  | succ f ih =>
    intro s hs hf
    by_cases hsd : s = d
    · subst hsd
      simp only [ht_set_entry_loop, hhit, setEntryInsertOut]
      rcases pl with _ | _ <;> rcases sOk with _ | _ <;> simp
    · have hsd2 : s < d := by omega
      obtain ⟨k2, hk2, hne⟩ := hbefore s hsd2
      simp only [ht_set_entry_loop, hk2, if_neg hne]
      rw [← slotIdx_succ cap home s hcap]
      exact ih (s + 1) (by omega) (by omega)

/-! Accessors for the probing invariants. -/

theorem probeInv_elim {cap : Nat} {entries : List ht_entry}
    (h : ProbeInv cap entries) {i : Nat} {k : List Nat}
    (hi : i < cap) (hk : (entries.getD i emptyEntry).key = some k) :
    ∀ s, s < probeDist cap (homeIndex cap k) i →
      occupiedSlot entries (slotIdx cap (homeIndex cap k) s) := by
  intro s hs
  have h2 := h i hi s (by simp only [probeLen, hk]; exact hs)
  simpa only [homeOfSlot, hk] using h2

theorem probeInv_intro {cap : Nat} {entries : List ht_entry}
    (h : ∀ i k, i < cap → (entries.getD i emptyEntry).key = some k →
      ∀ s, s < probeDist cap (homeIndex cap k) i →
        occupiedSlot entries (slotIdx cap (homeIndex cap k) s)) :
    ProbeInv cap entries := by
  intro i hi s hs
  rcases hk : (entries.getD i emptyEntry).key with _ | k
  · simp only [probeLen, hk] at hs
    omega
  · simp only [probeLen, hk] at hs
    simp only [homeOfSlot, hk]
    exact h i k hi hk s hs

theorem noDup_elim {entries : List ht_entry} (h : NoDupKeys entries)
    {i j : Nat} {k : List Nat} (hi : i < entries.length)
    (hj : j < entries.length) (hij : i ≠ j)
    (hk : (entries.getD i emptyEntry).key = some k) :
    (entries.getD j emptyEntry).key ≠ some k := by
  rcases h i hi j hj with h1 | h2 | h3
  · rw [hk] at h1
    exact absurd h1 (by simp)
  · exact absurd h2 hij
  · rw [hk] at h3
    intro hj2
    rw [hj2] at h3
    exact h3 rfl

/-! Decomposition of a probe path: for a stored key, every slot of the probe
path before it is occupied by a different key; for an absent key with an
empty slot available, the probe path reaches a first empty slot. -/

theorem present_path {cap : Nat} {entries : List ht_entry} {key : List Nat}
    {i : Nat} (hcap : 0 < cap) (hlen : entries.length = cap)
    (hPI : ProbeInv cap entries) (hND : NoDupKeys entries)
    (hi : i < cap) (hk : (entries.getD i emptyEntry).key = some key) :
    probeDist cap (homeIndex cap key) i < cap ∧
    slotIdx cap (homeIndex cap key) (probeDist cap (homeIndex cap key) i) = i ∧
    ∀ s, s < probeDist cap (homeIndex cap key) i → ∃ k2,
      (entries.getD (slotIdx cap (homeIndex cap key) s) emptyEntry).key = some k2 ∧
      key ≠ k2 := by
  have hhome : homeIndex cap key < cap := homeIndex_lt cap key hcap
  have hd : probeDist cap (homeIndex cap key) i < cap := probeDist_lt cap _ i hcap
  have hslot : slotIdx cap (homeIndex cap key) (probeDist cap (homeIndex cap key) i) = i :=
    slotIdx_probeDist cap _ i hhome hi
  refine ⟨hd, hslot, fun s hs => ?_⟩
  have hocc := probeInv_elim hPI hi hk s hs
  rcases hk2 : (entries.getD (slotIdx cap (homeIndex cap key) s) emptyEntry).key
    with _ | k2
  · exact absurd hk2 hocc
  · refine ⟨k2, rfl, fun hkey => ?_⟩
    subst hkey
    have hne : slotIdx cap (homeIndex cap key) s ≠ i := by
      intro heq
      rw [← hslot] at heq
      have heq2 := @slotIdx_inj cap (homeIndex cap key) s
        (probeDist cap (homeIndex cap key) i) (by omega) hd heq
      omega
    have := noDup_elim hND (hlen ▸ hi)
      (hlen ▸ slotIdx_lt cap (homeIndex cap key) s hcap) (fun h => hne h.symm) hk
    exact this hk2

theorem absent_path {cap : Nat} {entries : List ht_entry} {key : List Nat}
    (hcap : 0 < cap) (hlen : entries.length = cap)
    (habs : absentKey entries key)
    (hempty : ∃ j, j < cap ∧ (entries.getD j emptyEntry).key = none) :
    ∃ d, d < cap ∧
      (entries.getD (slotIdx cap (homeIndex cap key) d) emptyEntry).key = none ∧
      (∀ s, s < d → ∃ k2,
        (entries.getD (slotIdx cap (homeIndex cap key) s) emptyEntry).key = some k2 ∧
        key ≠ k2) := by
  have hhome : homeIndex cap key < cap := homeIndex_lt cap key hcap
  obtain ⟨j, hj, hjempty⟩ := hempty
  have hP : ∃ s, (entries.getD (slotIdx cap (homeIndex cap key) s) emptyEntry).key = none := by
    refine ⟨probeDist cap (homeIndex cap key) j, ?_⟩
    rw [slotIdx_probeDist cap _ j hhome hj]
    exact hjempty
  refine ⟨Nat.find hP, ?_, Nat.find_spec hP, fun s hs => ?_⟩
  · have h1 : Nat.find hP ≤ probeDist cap (homeIndex cap key) j :=
      Nat.find_min' hP
        (by rw [slotIdx_probeDist cap _ j hhome hj]; exact hjempty)
    have h2 := probeDist_lt cap (homeIndex cap key) j hcap
    omega
  · have hnot := Nat.find_min hP hs
    rcases hk2 : (entries.getD (slotIdx cap (homeIndex cap key) s) emptyEntry).key
      with _ | k2
    · exact absurd hk2 hnot
    · refine ⟨k2, rfl, fun hkey => ?_⟩
      subst hkey
      exact habs _ (hlen ▸ slotIdx_lt cap (homeIndex cap key) s hcap) hk2

theorem exists_empty_of_countP_lt (p : ht_entry → Bool) :
    ∀ l : List ht_entry, l.countP p < l.length →
      ∃ j, j < l.length ∧ p (l.getD j emptyEntry) = false := by
  intro l
  induction l with
  | nil => simp
  | cons a t ih =>
    intro h
    rcases hpa : p a with _ | _
    · exact ⟨0, by simp, by simpa using hpa⟩
    · have h2 : t.countP p < t.length := by
        rw [List.countP_cons, if_pos hpa, List.length_cons] at h
        omega
      obtain ⟨j, hj, hjp⟩ := ih h2
      exact ⟨j + 1, by simpa using hj, by simpa using hjp⟩

theorem exists_empty_slot {entries : List ht_entry} {cap : Nat}
    (hlen : entries.length = cap) (h : numOccupied entries < cap) :
    ∃ j, j < cap ∧ (entries.getD j emptyEntry).key = none := by
  obtain ⟨j, hj, hjp⟩ :=
    exists_empty_of_countP_lt (fun e => e.key.isSome) entries (by
      unfold numOccupied at h
      omega)
  refine ⟨j, hlen ▸ hj, ?_⟩
  rcases hk : (entries.getD j emptyEntry).key with _ | k
  · rfl
  · rw [hk] at hjp
    simp at hjp

/-! Behaviour of ht_set_entry and ht_get on well-formed stores. -/

theorem ht_set_entry_present {entries : List ht_entry} {cap : Nat}
    {key : List Nat} (value : Nat) (pl : Bool) (len : Nat) (sOk : Bool)
    {i : Nat} (hcap : 0 < cap) (hlen : entries.length = cap)
    (hPI : ProbeInv cap entries) (hND : NoDupKeys entries)
    (hi : i < cap) (hk : (entries.getD i emptyEntry).key = some key) :
    ht_set_entry entries cap key value pl len sOk =
      some ⟨entries.set i ⟨some key, value⟩, len, some key⟩ := by
  obtain ⟨hd, hslot, hbefore⟩ := present_path hcap hlen hPI hND hi hk
  have hrun := ht_set_entry_loop_hit key value sOk pl entries cap len
    (homeIndex cap key) (probeDist cap (homeIndex cap key) i) hcap hd
    (by rw [hslot]; exact hk) hbefore cap 0 (by omega) (by omega)
  rw [slotIdx_zero _ _ (homeIndex_lt cap key hcap), hslot] at hrun
  unfold ht_set_entry
  rw [hrun]

theorem ht_set_entry_absent {entries : List ht_entry} {cap : Nat}
    {key : List Nat} (value : Nat) (pl : Bool) (len : Nat) (sOk : Bool)
    (hcap : 0 < cap) (hlen : entries.length = cap)
    (habs : absentKey entries key)
    (hempty : ∃ j, j < cap ∧ (entries.getD j emptyEntry).key = none) :
    ∃ d, d < cap ∧
      (entries.getD (slotIdx cap (homeIndex cap key) d) emptyEntry).key = none ∧
      (∀ s, s < d → ∃ k2,
        (entries.getD (slotIdx cap (homeIndex cap key) s) emptyEntry).key = some k2 ∧
        key ≠ k2) ∧
      ht_set_entry entries cap key value pl len sOk =
        some (setEntryInsertOut pl sOk entries
          (slotIdx cap (homeIndex cap key) d) key value len) := by
  obtain ⟨d, hd, hdempty, hbefore⟩ := absent_path hcap hlen habs hempty
  refine ⟨d, hd, hdempty, hbefore, ?_⟩
  have hrun := ht_set_entry_loop_empty key value sOk pl entries cap len
    (homeIndex cap key) d hcap hd hdempty hbefore cap 0 (by omega) (by omega)
  rw [slotIdx_zero _ _ (homeIndex_lt cap key hcap)] at hrun
  unfold ht_set_entry
  rw [hrun]

theorem ht_get_found {t : ht} {key : List Nat} {v : Nat}
    (hcap : 0 < t.capacity) (hlen : t.entries.length = t.capacity)
    (hPI : ProbeInv t.capacity t.entries) (hND : NoDupKeys t.entries)
    (hmap : mapsTo t.entries key v) :
    ht_get (some t) (some key) = some v := by
  obtain ⟨i, hiLen, hie⟩ := hmap
  have hi : i < t.capacity := hlen ▸ hiLen
  have hk : (t.entries.getD i emptyEntry).key = some key := by rw [hie]
  obtain ⟨hd, hslot, hbefore⟩ := present_path hcap hlen hPI hND hi hk
  have hrun := ht_get_loop_hit t.entries t.capacity key
    (homeIndex t.capacity key) (probeDist t.capacity (homeIndex t.capacity key) i)
    hcap hd (by rw [hslot]; exact hk) hbefore t.capacity 0 (by omega) (by omega)
  rw [slotIdx_zero _ _ (homeIndex_lt t.capacity key hcap), hslot, hie] at hrun
  show ht_get_loop t.entries t.capacity key t.capacity
    (homeIndex t.capacity key) = some v
  exact hrun

theorem ht_get_missing {t : ht} {key : List Nat}
    (hcap : 0 < t.capacity) (hlen : t.entries.length = t.capacity)
    (habs : absentKey t.entries key)
    (hempty : ∃ j, j < t.capacity ∧ (t.entries.getD j emptyEntry).key = none) :
    ht_get (some t) (some key) = some 0 := by
  obtain ⟨d, hd, hdempty, hbefore⟩ := absent_path hcap hlen habs hempty
  have hrun := ht_get_loop_empty t.entries t.capacity key
    (homeIndex t.capacity key) d hcap hd hdempty hbefore t.capacity 0
    (by omega) (by omega)
  rw [slotIdx_zero _ _ (homeIndex_lt t.capacity key hcap)] at hrun
  show ht_get_loop t.entries t.capacity key t.capacity
    (homeIndex t.capacity key) = some 0
  exact hrun

/-! The probe of ht_get retraces the probe of a successful ht_set_entry run
on the resulting store: the round-trip lemma needs no probing invariant,
because both loops walk the same path. -/

theorem set_entry_loop_get {key : List Nat} {value : Nat} {sOk pl : Bool}
    {cap : Nat} :
    ∀ (fuel idx : Nat) (entries : List ht_entry) (len : Nat)
      (out : SetEntryOut) (r : List Nat),
      idx < cap → entries.length = cap →
      ht_set_entry_loop key value sOk pl entries cap len fuel idx = some out →
      out.ret = some r →
      (∃ i, i < cap ∧
        ((entries.getD i emptyEntry).key = none ∨
          (entries.getD i emptyEntry).key = some key) ∧
        out.entries = entries.set i ⟨some key, value⟩) ∧
      ht_get_loop out.entries cap key fuel idx = some value := by
  intro fuel
  induction fuel with
  | zero =>
    intro idx entries len out r hidx hlen hrun hret
    simp [ht_set_entry_loop] at hrun
  | succ f ih =>
    intro idx entries len out r hidx hlen hrun hret
    rcases hk : (entries.getD idx emptyEntry).key with _ | k
    · simp only [ht_set_entry_loop, hk] at hrun
      have hwrite : out.entries = entries.set idx ⟨some key, value⟩ := by
        by_cases hpl : pl = true
        · rw [if_pos hpl] at hrun
          by_cases hsk : sOk = true
          · rw [if_pos hsk] at hrun
            rw [(Option.some.inj hrun).symm]
          · rw [if_neg hsk] at hrun
            rw [(Option.some.inj hrun).symm] at hret
            simp at hret
        · rw [if_neg hpl] at hrun
          rw [(Option.some.inj hrun).symm]
      refine ⟨⟨idx, hidx, Or.inl hk, hwrite⟩, ?_⟩
      have hset : out.entries.getD idx emptyEntry = ⟨some key, value⟩ := by
        rw [hwrite]
        exact getD_set_self _ (hlen ▸ hidx)
      simp only [ht_get_loop, hset]
      rw [if_true]
    · simp only [ht_set_entry_loop, hk] at hrun
      by_cases hkey : key = k
      · rw [if_pos hkey] at hrun
        subst hkey
        have hout : out = ⟨entries.set idx ⟨some key, value⟩, len, some key⟩ :=
          (Option.some.inj hrun).symm
        refine ⟨⟨idx, hidx, Or.inr hk, by rw [hout]⟩, ?_⟩
        have hset : out.entries.getD idx emptyEntry = ⟨some key, value⟩ := by
          rw [hout]
          exact getD_set_self _ (hlen ▸ hidx)
        simp only [ht_get_loop, hset]
        rw [if_true]
      · rw [if_neg hkey] at hrun
        have hnext : wrapNext cap idx < cap := by
          unfold wrapNext
          split <;> omega
        obtain ⟨⟨i, hi, hislot, hout⟩, hget⟩ :=
          ih (wrapNext cap idx) entries len out r hnext hlen hrun hret
        refine ⟨⟨i, hi, hislot, hout⟩, ?_⟩
        have hne : i ≠ idx := by
          intro h
          subst h
          rcases hislot with h1 | h2
          · rw [hk] at h1
            cases h1
          · rw [hk] at h2
            have : k = key := by injection h2
            exact hkey this.symm
        have hidxe : out.entries.getD idx emptyEntry =
            entries.getD idx emptyEntry := by
          rw [hout]
          exact getD_set_ne _ hne
        simp only [ht_get_loop, hidxe, hk, if_neg hkey]
        exact hget

/-! Bookkeeping facts about successful probe-loop runs. -/

theorem set_entry_loop_entries_length {key : List Nat} {value : Nat}
    {sOk pl : Bool} {cap : Nat} :
    ∀ (fuel idx : Nat) (entries : List ht_entry) (len : Nat) (out : SetEntryOut),
      ht_set_entry_loop key value sOk pl entries cap len fuel idx = some out →
      out.entries.length = entries.length := by
  intro fuel
  induction fuel with
  | zero =>
    intro idx entries len out hrun
    simp [ht_set_entry_loop] at hrun
  | succ f ih =>
    intro idx entries len out hrun
    rcases hk : (entries.getD idx emptyEntry).key with _ | k
    · simp only [ht_set_entry_loop, hk] at hrun
      by_cases hpl : pl = true
      · rw [if_pos hpl] at hrun
        by_cases hsk : sOk = true
        · rw [if_pos hsk] at hrun
          rw [(Option.some.inj hrun).symm]
          simp
        · rw [if_neg hsk] at hrun
          rw [(Option.some.inj hrun).symm]
      · rw [if_neg hpl] at hrun
        rw [(Option.some.inj hrun).symm]
        simp
    · simp only [ht_set_entry_loop, hk] at hrun
      by_cases hkey : key = k
      · rw [if_pos hkey] at hrun
        rw [(Option.some.inj hrun).symm]
        simp
      · rw [if_neg hkey] at hrun
        exact ih _ entries len out hrun

theorem set_entry_loop_length_cases {key : List Nat} {value : Nat}
    {sOk pl : Bool} {cap : Nat} :
    ∀ (fuel idx : Nat) (entries : List ht_entry) (len : Nat) (out : SetEntryOut),
      ht_set_entry_loop key value sOk pl entries cap len fuel idx = some out →
      out.length = len ∨ (out.length = len + 1 ∧ pl = true) := by
  intro fuel
  induction fuel with
  | zero =>
    intro idx entries len out hrun
    simp [ht_set_entry_loop] at hrun
  | succ f ih =>
    intro idx entries len out hrun
    rcases hk : (entries.getD idx emptyEntry).key with _ | k
    · simp only [ht_set_entry_loop, hk] at hrun
      by_cases hpl : pl = true
      · rw [if_pos hpl] at hrun
        by_cases hsk : sOk = true
        · rw [if_pos hsk] at hrun
          rw [(Option.some.inj hrun).symm]
          exact Or.inr ⟨rfl, hpl⟩
        · rw [if_neg hsk] at hrun
          rw [(Option.some.inj hrun).symm]
          exact Or.inl rfl
      · rw [if_neg hpl] at hrun
        rw [(Option.some.inj hrun).symm]
        exact Or.inl rfl
    · simp only [ht_set_entry_loop, hk] at hrun
      by_cases hkey : key = k
      · rw [if_pos hkey] at hrun
        rw [(Option.some.inj hrun).symm]
        exact Or.inl rfl
      · rw [if_neg hkey] at hrun
        exact ih _ entries len out hrun

theorem expand_loop_entries_length {nc : Nat} :
    ∀ (old acc res : List ht_entry),
      ht_expand_loop nc old acc = some res → res.length = acc.length := by
  intro old
  induction old with
  | nil =>
    intro acc res h
    rw [← Option.some.inj h]
  | cons e rest ih =>
    intro acc res h
    rcases hk : e.key with _ | k
    · simp only [ht_expand_loop, hk] at h
      exact ih acc res h
    · simp only [ht_expand_loop, hk] at h
      rcases hse : ht_set_entry acc nc k e.value false 0 true with _ | out
      · rw [hse] at h
        cases h
      · rw [hse] at h
        have h1 := ih out.entries res h
        unfold ht_set_entry at hse
        have h2 := set_entry_loop_entries_length _ _ acc 0 out hse
        omega

/-- Shape of a successful ht_expand: the overflow check passed, calloc
succeeded, the rehash loop finished, the capacity was doubled and the length
kept. -/
theorem ht_expand_success {aOk : Bool} {t t' : ht}
    (h : ht_expand aOk t = some (true, t')) :
    aOk = true ∧ t.capacity ≤ t.capacity * 2 % U64 ∧
    t'.capacity = t.capacity * 2 % U64 ∧ t'.length = t.length ∧
    t'.entries.length = t'.capacity ∧
    ht_expand_loop (t.capacity * 2 % U64) t.entries
      (List.replicate (t.capacity * 2 % U64) emptyEntry) = some t'.entries := by
  have h2 : (if t.capacity * 2 % U64 < t.capacity then some (false, t)
      else if aOk then
        match ht_expand_loop (t.capacity * 2 % U64) t.entries
            (List.replicate (t.capacity * 2 % U64) emptyEntry) with
        | none => none
        | some new_entries =>
          some (true, (⟨new_entries, t.capacity * 2 % U64, t.length⟩ : ht))
      else some (false, t)) = some (true, t') := h
  by_cases h1 : t.capacity * 2 % U64 < t.capacity
  · rw [if_pos h1] at h2
    simp at h2
  · rw [if_neg h1] at h2
    rcases haOk : aOk with _ | _
    · rw [haOk] at h2
      simp at h2
    · rw [haOk, if_pos rfl] at h2
      rcases hloop : ht_expand_loop (t.capacity * 2 % U64) t.entries
          (List.replicate (t.capacity * 2 % U64) emptyEntry) with _ | ne
      · rw [hloop] at h2
        cases h2
      · rw [hloop] at h2
        have h3 : (⟨ne, t.capacity * 2 % U64, t.length⟩ : ht) = t' := by
          have := Option.some.inj h2
          exact congrArg Prod.snd this
        refine ⟨rfl, by omega, ?_, ?_, ?_, ?_⟩
        · rw [← h3]
        · rw [← h3]
        · rw [← h3]
          have h4 := expand_loop_entries_length t.entries
            (List.replicate (t.capacity * 2 % U64) emptyEntry) ne hloop
          simpa using h4
        · rw [← h3]

/-- Core of the round-trip property: a successful ht_set leaves the table in
a state where ht_get of the same key returns the value just stored.  Only
the array-length field consistency of the input table is needed. -/
theorem ht_set_success_get {aOk sOk : Bool} {t t' : ht} {k r : List Nat}
    {v : Nat} (hlen : t.entries.length = t.capacity)
    (hset : ht_set aOk sOk (some t) (some k) v = some (some t', some r)) :
    ht_get (some t') (some k) = some v := by
  have hset2 : (if v = 0 then some (some t, none)
      else match (if t.length ≥ t.capacity / 2 then ht_expand aOk t
                  else some (true, t)) with
        | none => none
        | some (false, t1) => some (some t1, none)
        | some (true, t1) =>
          match ht_set_entry t1.entries t1.capacity k v true t1.length sOk with
          | none => none
          | some out =>
            some (some ⟨out.entries, t1.capacity, out.length⟩, out.ret)) =
      some (some t', some r) := hset
  by_cases hv : v = 0
  · rw [if_pos hv] at hset2
    simp at hset2
  · rw [if_neg hv] at hset2
    rcases hexp : (if t.length ≥ t.capacity / 2 then ht_expand aOk t
        else some (true, t)) with _ | ⟨b, t1⟩
    · rw [hexp] at hset2
      cases hset2
    · rw [hexp] at hset2
      rcases b with _ | _
      · simp at hset2
      · have hset3 : (match ht_set_entry t1.entries t1.capacity k v true
              t1.length sOk with
            | none => none
            | some out =>
              some (some (⟨out.entries, t1.capacity, out.length⟩ : ht), out.ret)) =
            some (some t', some r) := hset2
        have hlen1 : t1.entries.length = t1.capacity := by
          by_cases hthr : t.length ≥ t.capacity / 2
          · rw [if_pos hthr] at hexp
            exact (ht_expand_success hexp).2.2.2.2.1
          · rw [if_neg hthr] at hexp
            have := Option.some.inj hexp
            have ht1 : t = t1 := congrArg Prod.snd this
            rw [← ht1]
            exact hlen
        rcases hse : ht_set_entry t1.entries t1.capacity k v true t1.length sOk
            with _ | out
        · rw [hse] at hset3
          cases hset3
        · rw [hse] at hset3
          have hpair := Option.some.inj hset3
          have ht' : some (⟨out.entries, t1.capacity, out.length⟩ : ht) = some t' :=
            congrArg Prod.fst hpair
          have hret : out.ret = some r := congrArg Prod.snd hpair
          have ht'2 : t' = ⟨out.entries, t1.capacity, out.length⟩ :=
            (Option.some.inj ht').symm
          have hcap1 : 0 < t1.capacity := by
            by_contra h0
            have hc0 : t1.capacity = 0 := by omega
            rw [hc0] at hse
            simp [ht_set_entry, ht_set_entry_loop] at hse
          unfold ht_set_entry at hse
          obtain ⟨_, hget⟩ := set_entry_loop_get t1.capacity
            (homeIndex t1.capacity k) t1.entries t1.length out r
            (homeIndex_lt t1.capacity k hcap1) hlen1 hse hret
          rw [ht'2]
          show ht_get_loop out.entries t1.capacity k t1.capacity
            (homeIndex t1.capacity k) = some v
          exact hget

/-! Preservation of the probing invariants by writes into the store. -/

theorem occupied_set_some {entries : List ht_entry} {i p : Nat}
    {key : List Nat} {v : Nat} (hi : i < entries.length)
    (hocc : (entries.getD p emptyEntry).key ≠ none) :
    ((entries.set i ⟨some key, v⟩).getD p emptyEntry).key ≠ none := by
  by_cases hip : i = p
  · subst hip
    rw [getD_set_self _ hi]
    simp
  · rw [getD_set_ne _ hip]
    exact hocc

theorem countP_eq_of_getD (p : ht_entry → Bool) :
    ∀ (l1 l2 : List ht_entry), l1.length = l2.length →
      (∀ j, j < l1.length → p (l1.getD j emptyEntry) = p (l2.getD j emptyEntry)) →
      l1.countP p = l2.countP p := by
  intro l1
  induction l1 with
  | nil =>
    intro l2 h _
    cases l2
    · rfl
    · simp at h
  | cons a t ih =>
    intro l2 h hp
    cases l2 with
    | nil => simp at h
    | cons b t2 =>
      have h0 := hp 0 (by simp)
      simp only [List.getD_cons_zero] at h0
      rw [List.countP_cons, List.countP_cons, h0,
        ih t2 (by simpa using h)
          (fun j hj => by simpa using hp (j + 1) (by simpa using hj))]

theorem probeInv_of_keys_eq {cap : Nat} {e1 e2 : List ht_entry}
    (hk : ∀ p, (e2.getD p emptyEntry).key = (e1.getD p emptyEntry).key)
    (h : ProbeInv cap e1) : ProbeInv cap e2 := by
  apply probeInv_intro
  intro i k hi hki s hs
  rw [hk i] at hki
  have hocc := probeInv_elim h hi hki s hs
  unfold occupiedSlot at hocc ⊢
  rw [hk _]
  exact hocc

theorem noDup_of_keys_eq {e1 e2 : List ht_entry} (hlen : e2.length = e1.length)
    (hk : ∀ p, (e2.getD p emptyEntry).key = (e1.getD p emptyEntry).key)
    (h : NoDupKeys e1) : NoDupKeys e2 := by
  intro i hi j hj
  rw [hk i, hk j]
  exact h i (hlen ▸ hi) j (hlen ▸ hj)

/-- Writing a fresh key into the empty slot its probe found preserves all
store invariants, counts one more occupied slot, and extends the stored
pairs by exactly the new pair. -/
theorem insert_preserves {cap : Nat} {entries : List ht_entry} {key : List Nat}
    {v : Nat} {d : Nat} (hcap : 0 < cap) (hlen : entries.length = cap)
    (hPI : ProbeInv cap entries) (hND : NoDupKeys entries)
    (habs : absentKey entries key) (hd : d < cap)
    (hdempty : (entries.getD (slotIdx cap (homeIndex cap key) d) emptyEntry).key = none)
    (hbefore : ∀ s, s < d → ∃ k2,
      (entries.getD (slotIdx cap (homeIndex cap key) s) emptyEntry).key = some k2 ∧
      key ≠ k2) :
    ProbeInv cap (entries.set (slotIdx cap (homeIndex cap key) d) ⟨some key, v⟩) ∧
    NoDupKeys (entries.set (slotIdx cap (homeIndex cap key) d) ⟨some key, v⟩) ∧
    numOccupied (entries.set (slotIdx cap (homeIndex cap key) d) ⟨some key, v⟩) =
      numOccupied entries + 1 ∧
    (∀ k2 v2,
      mapsTo (entries.set (slotIdx cap (homeIndex cap key) d) ⟨some key, v⟩) k2 v2 ↔
        ((k2 = key ∧ v2 = v) ∨ mapsTo entries k2 v2)) := by
  have hhome : homeIndex cap key < cap := homeIndex_lt cap key hcap
  have hi : slotIdx cap (homeIndex cap key) d < cap := slotIdx_lt cap _ d hcap
  have hiLen : slotIdx cap (homeIndex cap key) d < entries.length := hlen ▸ hi
  have hdist : probeDist cap (homeIndex cap key)
      (slotIdx cap (homeIndex cap key) d) = d := probeDist_slotIdx cap _ d hhome hd
  refine ⟨?_, ?_, ?_, ?_⟩
  · apply probeInv_intro
    intro i2 k2 hi2 hk2 s hs
    by_cases hii : i2 = slotIdx cap (homeIndex cap key) d
    · subst hii
      rw [getD_set_self _ hiLen] at hk2
      have hk2e : key = k2 := by injection hk2
      subst hk2e
      rw [hdist] at hs
      obtain ⟨k3, hk3, _⟩ := hbefore s hs
      unfold occupiedSlot
      apply occupied_set_some hiLen
      rw [hk3]
      simp
    · rw [getD_set_ne _ (fun h => hii h.symm)] at hk2
      have hocc := probeInv_elim hPI hi2 hk2 s hs
      unfold occupiedSlot at hocc ⊢
      exact occupied_set_some hiLen hocc
  · intro i1 hi1 j hj
    simp only [List.length_set] at hi1 hj
    by_cases hij : i1 = j
    · exact Or.inr (Or.inl hij)
    · by_cases h1 : i1 = slotIdx cap (homeIndex cap key) d
      · subst h1
        rw [getD_set_self _ hiLen,
          getD_set_ne _ (fun h => hij h)]
        refine Or.inr (Or.inr ?_)
        intro hcontra
        exact habs j hj hcontra.symm
      · rw [getD_set_ne _ (fun h => h1 h.symm)]
        by_cases h2 : j = slotIdx cap (homeIndex cap key) d
        · subst h2
          rw [getD_set_self _ hiLen]
          rcases hk1 : (entries.getD i1 emptyEntry).key with _ | k1
          · exact Or.inl rfl
          · refine Or.inr (Or.inr ?_)
            intro hcontra
            have : k1 = key := by injection hcontra
            subst this
            exact habs i1 hi1 hk1
        · rw [getD_set_ne _ (fun h => h2 h.symm)]
          exact hND i1 hi1 j hj
  · have h := countP_set (fun e => e.key.isSome) ⟨some key, v⟩ entries
      (slotIdx cap (homeIndex cap key) d) hiLen
    have h1 : ((fun (e : ht_entry) => e.key.isSome)
        (entries.getD (slotIdx cap (homeIndex cap key) d) emptyEntry)) = false := by
      simp only [hdempty]
      rfl
    have h2 : ((fun (e : ht_entry) => e.key.isSome)
        (⟨some key, v⟩ : ht_entry)) = true := rfl
    rw [h1, h2] at h
    simp only [Bool.false_eq_true, if_false, if_true] at h
    unfold numOccupied
    omega
  · intro k2 v2
    constructor
    · rintro ⟨j, hj, hje⟩
      simp only [List.length_set] at hj
      by_cases hij : j = slotIdx cap (homeIndex cap key) d
      · subst hij
        rw [getD_set_self _ hiLen] at hje
        injection hje with h1 h2
        exact Or.inl ⟨(Option.some.inj h1).symm, h2.symm⟩
      · rw [getD_set_ne _ (fun h => hij h.symm)] at hje
        exact Or.inr ⟨j, hj, hje⟩
    · rintro (⟨hk2, hv2⟩ | ⟨j, hj, hje⟩)
      · refine ⟨slotIdx cap (homeIndex cap key) d, by simpa using hiLen, ?_⟩
        rw [getD_set_self _ hiLen, hk2, hv2]
      · have hji : j ≠ slotIdx cap (homeIndex cap key) d := by
          intro h
          subst h
          rw [hje] at hdempty
          cases hdempty
        exact ⟨j, by simpa using hj, by
          rw [getD_set_ne _ (fun h => hji h.symm)]
          exact hje⟩

/-- Overwriting the value of a stored key in place preserves all store
invariants, the occupied count, and replaces exactly that association among
the stored pairs. -/
theorem update_preserves {cap : Nat} {entries : List ht_entry} {key : List Nat}
    {v : Nat} {i : Nat} (hcap : 0 < cap) (hlen : entries.length = cap)
    (hPI : ProbeInv cap entries) (hND : NoDupKeys entries)
    (hi : i < cap) (hk : (entries.getD i emptyEntry).key = some key) :
    ProbeInv cap (entries.set i ⟨some key, v⟩) ∧
    NoDupKeys (entries.set i ⟨some key, v⟩) ∧
    numOccupied (entries.set i ⟨some key, v⟩) = numOccupied entries ∧
    (∀ k2 v2, mapsTo (entries.set i ⟨some key, v⟩) k2 v2 ↔
      ((k2 = key ∧ v2 = v) ∨ (k2 ≠ key ∧ mapsTo entries k2 v2))) := by
  have hiLen : i < entries.length := hlen ▸ hi
  have hkeys : ∀ p, ((entries.set i ⟨some key, v⟩).getD p emptyEntry).key =
      (entries.getD p emptyEntry).key := by
    intro p
    by_cases hip : i = p
    · subst hip
      rw [getD_set_self _ hiLen, hk]
    · rw [getD_set_ne _ hip]
  refine ⟨probeInv_of_keys_eq hkeys hPI,
    noDup_of_keys_eq (by simp) hkeys hND, ?_, ?_⟩
  · exact countP_eq_of_getD _ _ _ (by simp)
      (fun j hj => by rw [hkeys j])
  · intro k2 v2
    constructor
    · rintro ⟨j, hj, hje⟩
      simp only [List.length_set] at hj
      by_cases hij : j = i
      · subst hij
        rw [getD_set_self _ hiLen] at hje
        injection hje with h1 h2
        exact Or.inl ⟨(Option.some.inj h1).symm, h2.symm⟩
      · rw [getD_set_ne _ (fun h => hij h.symm)] at hje
        refine Or.inr ⟨?_, j, hj, hje⟩
        intro hk2
        subst hk2
        have hkd : (entries.getD j emptyEntry).key = some k2 := by rw [hje]
        exact noDup_elim hND hiLen hj (fun h => hij h.symm) hk hkd
    · rintro (⟨hk2, hv2⟩ | ⟨hne, j, hj, hje⟩)
      · subst hk2
        subst hv2
        exact ⟨i, by simpa using hiLen, getD_set_self _ hiLen⟩
      · have hji : j ≠ i := by
          intro h
          subst h
          have : (entries.getD j emptyEntry).key = some k2 := by rw [hje]
          rw [hk] at this
          exact hne (Option.some.inj this).symm
        exact ⟨j, by simpa using hj, by
          rw [getD_set_ne _ (fun h => hji h.symm)]
          exact hje⟩

/-! Structural helpers for lists of entries. -/

theorem mapsTo_cons {e : ht_entry} {l : List ht_entry} {k : List Nat} {v : Nat} :
    mapsTo (e :: l) k v ↔ (e = ⟨some k, v⟩ ∨ mapsTo l k v) := by
  constructor
  · rintro ⟨j, hj, hje⟩
    match j with
    | 0 =>
      left
      simpa [List.getD_cons_zero] using hje
    | Nat.succ j2 =>
      right
      exact ⟨j2, by simpa using hj, by simpa [List.getD_cons_succ] using hje⟩
  · rintro (h | ⟨j, hj, hje⟩)
    · exact ⟨0, by simp, by simpa [List.getD_cons_zero] using h⟩
    · exact ⟨j + 1, by simpa using hj, by simpa [List.getD_cons_succ] using hje⟩

theorem noDupKeys_tail {e : ht_entry} {l : List ht_entry}
    (h : NoDupKeys (e :: l)) : NoDupKeys l := by
  intro i hi j hj
  have h2 := h (i + 1) (by simpa using hi) (j + 1) (by simpa using hj)
  simpa [List.getD_cons_succ] using h2

theorem noDupKeys_head {e : ht_entry} {l : List ht_entry} {k : List Nat}
    (h : NoDupKeys (e :: l)) (hk : e.key = some k) :
    ∀ j, j < l.length → (l.getD j emptyEntry).key ≠ some k := by
  intro j hj
  have h2 := noDup_elim h (show 0 < (e :: l).length by simp)
    (show j + 1 < (e :: l).length by simpa using hj) (by omega)
    (show ((e :: l).getD 0 emptyEntry).key = some k by
      simpa [List.getD_cons_zero] using hk)
  simpa [List.getD_cons_succ] using h2

theorem getD_replicate_empty (n j : Nat) :
    (List.replicate n emptyEntry).getD j emptyEntry = emptyEntry := by
  by_cases hj : j < n
  · rw [List.getD_eq_getElem _ _ (by simpa using hj)]
    exact List.getElem_replicate emptyEntry _
  · rw [List.getD_eq_default _ _ (by simpa using hj)]

theorem numOccupied_replicate (n : Nat) :
    numOccupied (List.replicate n emptyEntry) = 0 := by
  induction n with
  | zero => rfl
  | succ m ih =>
    unfold numOccupied at ih ⊢
    rw [List.replicate_succ, List.countP_cons]
    simp [ih, emptyEntry]

theorem numOccupied_le_length (l : List ht_entry) : numOccupied l ≤ l.length :=
  List.countP_le_length _

theorem absentKey_iff {entries : List ht_entry} {k : List Nat} :
    absentKey entries k ↔ ∀ v, ¬ mapsTo entries k v := by
  constructor
  · rintro h v ⟨j, hj, hje⟩
    exact h j hj (by rw [hje])
  · intro h i hi hk
    refine h (entries.getD i emptyEntry).value ⟨i, hi, ?_⟩
    rw [← hk]

/-- Invariant of the rehash loop: reinserting a list of entries with
pairwise distinct keys, all absent from the accumulator store, succeeds and
yields a store holding exactly the old pairs on top of the accumulated
ones. -/
theorem expand_loop_spec {nc : Nat} (hnc : 0 < nc) :
    ∀ (old acc : List ht_entry),
      acc.length = nc → ProbeInv nc acc → NoDupKeys acc → NoDupKeys old →
      (∀ j k, j < old.length → (old.getD j emptyEntry).key = some k →
        absentKey acc k) →
      numOccupied acc + numOccupied old ≤ nc →
      ∃ res, ht_expand_loop nc old acc = some res ∧
        res.length = nc ∧ ProbeInv nc res ∧ NoDupKeys res ∧
        numOccupied res = numOccupied acc + numOccupied old ∧
        (∀ k v, mapsTo res k v ↔ (mapsTo acc k v ∨ mapsTo old k v)) := by
  intro old
  induction old with
  | nil =>
    intro acc hlen hPI hND _ _ _
    refine ⟨acc, rfl, hlen, hPI, hND, by simp [numOccupied], ?_⟩
    intro k v
    have : ¬ mapsTo ([] : List ht_entry) k v := by
      rintro ⟨j, hj, _⟩
      simp at hj
    simp [this]
  | cons e rest ih =>
    intro acc hlen hPI hND hNDold habs hroom
    have hNDrest := noDupKeys_tail hNDold
    have habsrest : ∀ j k, j < rest.length →
        (rest.getD j emptyEntry).key = some k → absentKey acc k := by
      intro j k hj hk
      exact habs (j + 1) k (by simpa using hj) (by simpa [List.getD_cons_succ] using hk)
    rcases hek : e.key with _ | k
    · have hocc : numOccupied (e :: rest) = numOccupied rest := by
        unfold numOccupied
        rw [List.countP_cons]
        simp [hek]
      obtain ⟨res, hrun, h1, h2, h3, h4, h5⟩ :=
        ih acc hlen hPI hND hNDrest habsrest (by omega)
      refine ⟨res, ?_, h1, h2, h3, by omega, ?_⟩
      · simp only [ht_expand_loop, hek]
        exact hrun
      · intro k2 v2
        rw [h5 k2 v2, mapsTo_cons]
        constructor
        · rintro (h | h)
          · exact Or.inl h
          · exact Or.inr (Or.inr h)
        · rintro (h | h | h)
          · exact Or.inl h
          · rw [h] at hek
            simp at hek
          · exact Or.inr h
    · have hocc : numOccupied (e :: rest) = numOccupied rest + 1 := by
        unfold numOccupied
        rw [List.countP_cons]
        simp [hek]
      have habs_e : absentKey acc k :=
        habs 0 k (by simp) (by simpa [List.getD_cons_zero] using hek)
      have hroomacc : numOccupied acc < nc := by omega
      obtain ⟨d, hd, hdempty, hbefore, hrun⟩ :=
        ht_set_entry_absent e.value false 0 true hnc hlen habs_e
          (exists_empty_slot hlen hroomacc)
      have hout : setEntryInsertOut false true acc
          (slotIdx nc (homeIndex nc k) d) k e.value 0 =
          ⟨acc.set (slotIdx nc (homeIndex nc k) d) ⟨some k, e.value⟩, 0, some k⟩ := by
        unfold setEntryInsertOut
        simp
      obtain ⟨hPI2, hND2, hocc2, hmap2⟩ :=
        @insert_preserves nc acc k e.value d hnc hlen hPI hND habs_e hd hdempty
          hbefore
      have hlen2 : (acc.set (slotIdx nc (homeIndex nc k) d)
          ⟨some k, e.value⟩).length = nc := by
        simpa using hlen
      have habsrest2 : ∀ j k2, j < rest.length →
          (rest.getD j emptyEntry).key = some k2 →
          absentKey (acc.set (slotIdx nc (homeIndex nc k) d) ⟨some k, e.value⟩) k2 := by
        intro j k2 hj hk2
        have hk2k : k2 ≠ k := by
          intro h
          subst h
          exact noDupKeys_head hNDold hek j hj hk2
        intro p hp
        by_cases hpi : p = slotIdx nc (homeIndex nc k) d
        · subst hpi
          rw [getD_set_self _ (by omega)]
          intro hcon
          exact hk2k (Option.some.inj hcon).symm
        · rw [getD_set_ne _ (fun h => hpi h.symm)]
          exact habsrest j k2 hj hk2 p (by simpa using hp)
      obtain ⟨res, hrunrest, h1, h2, h3, h4, h5⟩ :=
        ih (acc.set (slotIdx nc (homeIndex nc k) d) ⟨some k, e.value⟩)
          hlen2 hPI2 hND2 hNDrest habsrest2 (by omega)
      refine ⟨res, ?_, h1, h2, h3, by omega, ?_⟩
      · simp only [ht_expand_loop, hek]
        rw [hrun, hout]
        exact hrunrest
      · intro k2 v2
        rw [h5 k2 v2, hmap2 k2 v2, mapsTo_cons]
        constructor
        · rintro ((⟨hk2, hv2⟩ | h) | h)
          · refine Or.inr (Or.inl ?_)
            cases e
            simp only at hek
            rw [hk2, hv2, hek]
          · exact Or.inl h
          · exact Or.inr (Or.inr h)
        · rintro (h | h | h)
          · exact Or.inl (Or.inr h)
          · refine Or.inl (Or.inl ?_)
            rw [h] at hek
            refine ⟨Option.some.inj hek, ?_⟩
            rw [h]
          · exact Or.inr h

/-- Full specification of a successful growth: the capacity doubles, the
length field is untouched, the population of the new store equals that of
the old store, the probing invariants are reestablished, and the stored
pairs are exactly preserved. -/
theorem ht_expand_spec {aOk : Bool} {t t' : ht} (hcap : 0 < t.capacity)
    (hlen : t.entries.length = t.capacity)
    (hPI : ProbeInv t.capacity t.entries) (hND : NoDupKeys t.entries)
    (hexp : ht_expand aOk t = some (true, t')) :
    t'.capacity = t.capacity * 2 % U64 ∧
    t.capacity ≤ t'.capacity ∧
    t'.length = t.length ∧
    t'.entries.length = t'.capacity ∧
    ProbeInv t'.capacity t'.entries ∧ NoDupKeys t'.entries ∧
    numOccupied t'.entries = numOccupied t.entries ∧
    (∀ k v, mapsTo t'.entries k v ↔ mapsTo t.entries k v) := by
  obtain ⟨_, hle, hcap', hlen', hentlen, hloop⟩ := ht_expand_success hexp
  have hnc : 0 < t.capacity * 2 % U64 := by omega
  have hrepl : (List.replicate (t.capacity * 2 % U64) emptyEntry).length =
      t.capacity * 2 % U64 := by simp
  have hPIr : ProbeInv (t.capacity * 2 % U64)
      (List.replicate (t.capacity * 2 % U64) emptyEntry) := by
    apply probeInv_intro
    intro i k hi hk
    rw [getD_replicate_empty] at hk
    cases hk
  have hNDr : NoDupKeys (List.replicate (t.capacity * 2 % U64) emptyEntry) := by
    intro i hi j hj
    rw [getD_replicate_empty]
    exact Or.inl rfl
  have habsr : ∀ j k, j < t.entries.length →
      (t.entries.getD j emptyEntry).key = some k →
      absentKey (List.replicate (t.capacity * 2 % U64) emptyEntry) k := by
    intro j k _ _ p hp
    rw [getD_replicate_empty]
    simp [emptyEntry]
  have hroom : numOccupied (List.replicate (t.capacity * 2 % U64) emptyEntry) +
      numOccupied t.entries ≤ t.capacity * 2 % U64 := by
    rw [numOccupied_replicate]
    have := numOccupied_le_length t.entries
    omega
  obtain ⟨res, hrun, h1, h2, h3, h4, h5⟩ :=
    expand_loop_spec hnc t.entries
      (List.replicate (t.capacity * 2 % U64) emptyEntry)
      hrepl hPIr hNDr hND habsr hroom
  have hres : res = t'.entries := by
    rw [hrun] at hloop
    exact Option.some.inj hloop
  subst hres
  rw [numOccupied_replicate] at h4
  refine ⟨hcap', by omega, hlen', hentlen, hcap' ▸ h2, h3, by omega, ?_⟩
  intro k v
  rw [h5 k v]
  constructor
  · rintro (h | h)
    · obtain ⟨j, hj, hje⟩ := h
      rw [getD_replicate_empty] at hje
      cases hje
    · exact h
  · exact Or.inr

/-- Case analysis of ht_set_entry with a live plength pointer on a
well-formed store with a free slot: it finishes, and either updates the
stored key in place, inserts the new key, or fails key duplication leaving
the store untouched. -/
theorem ht_set_entry_step {cap : Nat} {entries : List ht_entry}
    {k : List Nat} (v : Nat) (len : Nat) (sOk : Bool)
    (hcap : 0 < cap) (hlen : entries.length = cap)
    (hPI : ProbeInv cap entries) (hND : NoDupKeys entries)
    (hroom : numOccupied entries < cap) :
    ∃ out, ht_set_entry entries cap k v true len sOk = some out ∧
      out.entries.length = cap ∧
      (((∃ v0, mapsTo entries k v0) ∧
        out.length = len ∧ out.ret = some k ∧
        ProbeInv cap out.entries ∧ NoDupKeys out.entries ∧
        numOccupied out.entries = numOccupied entries ∧
        (∀ k2 v2, mapsTo out.entries k2 v2 ↔
          ((k2 = k ∧ v2 = v) ∨ (k2 ≠ k ∧ mapsTo entries k2 v2)))) ∨
      (absentKey entries k ∧ sOk = true ∧
        out.length = len + 1 ∧ out.ret = some k ∧
        ProbeInv cap out.entries ∧ NoDupKeys out.entries ∧
        numOccupied out.entries = numOccupied entries + 1 ∧
        (∀ k2 v2, mapsTo out.entries k2 v2 ↔
          ((k2 = k ∧ v2 = v) ∨ mapsTo entries k2 v2))) ∨
      (absentKey entries k ∧ sOk = false ∧
        out = ⟨entries, len, none⟩)) := by
  by_cases habs : absentKey entries k
  · obtain ⟨d, hd, hdempty, hbefore, hrun⟩ :=
      ht_set_entry_absent v true len sOk hcap hlen habs
        (exists_empty_slot hlen hroom)
    rcases hsOk : sOk with _ | _
    · refine ⟨⟨entries, len, none⟩, ?_, by simpa using hlen, ?_⟩
      · rw [hsOk] at hrun
        rw [hrun]
        unfold setEntryInsertOut
        simp
      · exact Or.inr (Or.inr ⟨habs, rfl, rfl⟩)
    · obtain ⟨hPI2, hND2, hocc2, hmap2⟩ :=
        @insert_preserves cap entries k v d hcap hlen hPI hND habs hd hdempty
          hbefore
      refine ⟨⟨entries.set (slotIdx cap (homeIndex cap k) d) ⟨some k, v⟩,
        len + 1, some k⟩, ?_, by simpa using hlen, ?_⟩
      · rw [hsOk] at hrun
        rw [hrun]
        unfold setEntryInsertOut
        simp
      · exact Or.inr (Or.inl ⟨habs, rfl, rfl, rfl, hPI2, hND2, hocc2, hmap2⟩)
  · have hpresent : ∃ i, i < entries.length ∧
        (entries.getD i emptyEntry).key = some k := by
      unfold absentKey at habs
      push_neg at habs
      exact habs
    obtain ⟨i, hiLen, hk⟩ := hpresent
    have hi : i < cap := hlen ▸ hiLen
    have hrun := ht_set_entry_present v true len sOk hcap hlen hPI hND hi hk
    obtain ⟨hPI2, hND2, hocc2, hmap2⟩ :=
      @update_preserves cap entries k v i hcap hlen hPI hND hi hk
    refine ⟨⟨entries.set i ⟨some k, v⟩, len, some k⟩, hrun,
      by simpa using hlen, ?_⟩
    refine Or.inl ⟨⟨(entries.getD i emptyEntry).value, i, hiLen, ?_⟩,
      rfl, rfl, hPI2, hND2, hocc2, hmap2⟩
    rw [← hk]

/-! Forward computation of ht_expand and reduction of ht_set to its
set-entry step. -/

theorem probeInv_replicate (nc n : Nat) :
    ProbeInv nc (List.replicate n emptyEntry) := by
  apply probeInv_intro
  intro i k _ hk
  rw [getD_replicate_empty] at hk
  cases hk

theorem noDupKeys_replicate (n : Nat) :
    NoDupKeys (List.replicate n emptyEntry) := by
  intro i _ j _
  rw [getD_replicate_empty]
  exact Or.inl rfl

theorem ht_expand_fail_overflow (aOk : Bool) (t : ht)
    (hover : t.capacity * 2 % U64 < t.capacity) :
    ht_expand aOk t = some (false, t) := by
  show (if t.capacity * 2 % U64 < t.capacity then some (false, t)
    else if aOk then
      match ht_expand_loop (t.capacity * 2 % U64) t.entries
          (List.replicate (t.capacity * 2 % U64) emptyEntry) with
      | none => none
      | some new_entries =>
        some (true, (⟨new_entries, t.capacity * 2 % U64, t.length⟩ : ht))
    else some (false, t)) = some (false, t)
  rw [if_pos hover]

theorem ht_expand_fail_alloc (t : ht)
    (hnofl : ¬ t.capacity * 2 % U64 < t.capacity) :
    ht_expand false t = some (false, t) := by
  show (if t.capacity * 2 % U64 < t.capacity then some (false, t)
    else if false then
      match ht_expand_loop (t.capacity * 2 % U64) t.entries
          (List.replicate (t.capacity * 2 % U64) emptyEntry) with
      | none => none
      | some new_entries =>
        some (true, (⟨new_entries, t.capacity * 2 % U64, t.length⟩ : ht))
    else some (false, t)) = some (false, t)
  rw [if_neg hnofl]
  rfl

theorem ht_expand_total (t : ht) (hcap : 0 < t.capacity)
    (hlen : t.entries.length = t.capacity)
    (hPI : ProbeInv t.capacity t.entries) (hND : NoDupKeys t.entries)
    (hnofl : ¬ t.capacity * 2 % U64 < t.capacity) :
    ∃ t', ht_expand true t = some (true, t') := by
  have hnc : 0 < t.capacity * 2 % U64 := by omega
  have habsr : ∀ j k, j < t.entries.length →
      (t.entries.getD j emptyEntry).key = some k →
      absentKey (List.replicate (t.capacity * 2 % U64) emptyEntry) k := by
    intro j k _ _ p _
    rw [getD_replicate_empty]
    simp [emptyEntry]
  have hroom : numOccupied (List.replicate (t.capacity * 2 % U64) emptyEntry) +
      numOccupied t.entries ≤ t.capacity * 2 % U64 := by
    rw [numOccupied_replicate]
    have := numOccupied_le_length t.entries
    omega
  obtain ⟨res, hrun, _⟩ :=
    expand_loop_spec hnc t.entries
      (List.replicate (t.capacity * 2 % U64) emptyEntry)
      (by simp) (probeInv_replicate _ _) (noDupKeys_replicate _) hND habsr hroom
  refine ⟨⟨res, t.capacity * 2 % U64, t.length⟩, ?_⟩
  show (if t.capacity * 2 % U64 < t.capacity then some (false, t)
    else if true then
      match ht_expand_loop (t.capacity * 2 % U64) t.entries
          (List.replicate (t.capacity * 2 % U64) emptyEntry) with
      | none => none
      | some new_entries =>
        some (true, (⟨new_entries, t.capacity * 2 % U64, t.length⟩ : ht))
    else some (false, t)) =
    some (true, (⟨res, t.capacity * 2 % U64, t.length⟩ : ht))
  rw [if_neg hnofl, if_pos rfl, hrun]

theorem ht_set_reduce (aOk sOk : Bool) (t t1 : ht) (k : List Nat) (v : Nat)
    (hv : v ≠ 0)
    (hstep : (if t.length ≥ t.capacity / 2 then ht_expand aOk t
              else some (true, t)) = some (true, t1)) :
    ht_set aOk sOk (some t) (some k) v =
      (match ht_set_entry t1.entries t1.capacity k v true t1.length sOk with
       | none => none
       | some out =>
         some (some ⟨out.entries, t1.capacity, out.length⟩, out.ret)) := by
  have h0 : ht_set aOk sOk (some t) (some k) v =
      (if v = 0 then some (some t, none)
       else match (if t.length ≥ t.capacity / 2 then ht_expand aOk t
                   else some (true, t)) with
        | none => none
        | some (false, t2) => some (some t2, none)
        | some (true, t2) =>
          match ht_set_entry t2.entries t2.capacity k v true t2.length sOk with
          | none => none
          | some out =>
            some (some ⟨out.entries, t2.capacity, out.length⟩, out.ret)) := rfl
  rw [h0, if_neg hv, hstep]

theorem ht_set_reduce_fail (aOk sOk : Bool) (t t1 : ht) (k : List Nat) (v : Nat)
    (hv : v ≠ 0)
    (hstep : (if t.length ≥ t.capacity / 2 then ht_expand aOk t
              else some (true, t)) = some (false, t1)) :
    ht_set aOk sOk (some t) (some k) v = some (some t1, none) := by
  have h0 : ht_set aOk sOk (some t) (some k) v =
      (if v = 0 then some (some t, none)
       else match (if t.length ≥ t.capacity / 2 then ht_expand aOk t
                   else some (true, t)) with
        | none => none
        | some (false, t2) => some (some t2, none)
        | some (true, t2) =>
          match ht_set_entry t2.entries t2.capacity k v true t2.length sOk with
          | none => none
          | some out =>
            some (some ⟨out.entries, t2.capacity, out.length⟩, out.ret)) := rfl
  rw [h0, if_neg hv, hstep]

/-- Master specification of ht_set with a valid table, key and non-NULL
value on a well-formed table: the call finishes, the resulting table is
again well-formed, and the outcome is either a failure (NULL return, stored
pairs and length untouched) or a successful update or fresh insert. -/
theorem ht_set_total (aOk sOk : Bool) (t : ht) (k : List Nat) (v : Nat)
    (hInv : Inv t) (hv : v ≠ 0) :
    ∃ (p : ht) (r : Option (List Nat)),
      ht_set aOk sOk (some t) (some k) v = some (some p, r) ∧ Inv p ∧
      t.capacity ≤ p.capacity ∧
      ((r = none ∧ p.length = t.length ∧
        (∀ k2 v2, mapsTo p.entries k2 v2 ↔ mapsTo t.entries k2 v2)) ∨
      (r = some k ∧
        (((∃ v0, mapsTo t.entries k v0) ∧ p.length = t.length ∧
          (∀ k2 v2, mapsTo p.entries k2 v2 ↔
            ((k2 = k ∧ v2 = v) ∨ (k2 ≠ k ∧ mapsTo t.entries k2 v2)))) ∨
        (absentKey t.entries k ∧ p.length = t.length + 1 ∧
          (∀ k2 v2, mapsTo p.entries k2 v2 ↔
            ((k2 = k ∧ v2 = v) ∨ mapsTo t.entries k2 v2)))))) := by
  obtain ⟨hlen, ⟨m, hm, hcapm⟩, hcapU, hocc, hload, hPI, hND⟩ := hInv
  have hInv' : Inv t := ⟨hlen, ⟨m, hm, hcapm⟩, hcapU, hocc, hload, hPI, hND⟩
  have hcap : 0 < t.capacity := by
    rw [hcapm]
    positivity
  have hcap16 : 16 ≤ t.capacity := by
    rw [hcapm]
    calc (16 : Nat) = 2 ^ 4 := by norm_num
    _ ≤ 2 ^ m := Nat.pow_le_pow_right (by omega) hm
  have hcapeven : 2 * (t.capacity / 2) = t.capacity := by
    rw [hcapm]
    have h2 : 2 ^ m = 2 * 2 ^ (m - 1) := by
      conv_lhs => rw [show m = (m - 1) + 1 by omega]
      rw [pow_succ]
      ring
    omega
  by_cases hthr : t.length ≥ t.capacity / 2
  · -- growth attempted before the insertion
    by_cases hover : t.capacity * 2 % U64 < t.capacity
    · -- size_t overflow: set fails, table unchanged
      have hstep : (if t.length ≥ t.capacity / 2 then ht_expand aOk t
          else some (true, t)) = some (false, t) := by
        rw [if_pos hthr]
        exact ht_expand_fail_overflow aOk t hover
      exact ⟨t, none, ht_set_reduce_fail aOk sOk t t k v hv hstep, hInv',
        le_refl _, Or.inl ⟨rfl, rfl, fun _ _ => Iff.rfl⟩⟩
    · rcases haOk : aOk with _ | _
      · -- calloc failure: set fails, table unchanged
        have hstep : (if t.length ≥ t.capacity / 2 then ht_expand false t
            else some (true, t)) = some (false, t) := by
          rw [if_pos hthr]
          exact ht_expand_fail_alloc t hover
        exact ⟨t, none, ht_set_reduce_fail false sOk t t k v hv hstep, hInv',
          le_refl _, Or.inl ⟨rfl, rfl, fun _ _ => Iff.rfl⟩⟩
      · -- successful growth, then the set-entry step
        obtain ⟨t1, hexp⟩ := ht_expand_total t hcap hlen hPI hND hover
        obtain ⟨hcap', hle, hlen1, hentlen1, hPI1, hND1, hocc1, hmap1⟩ :=
          ht_expand_spec hcap hlen hPI hND hexp
        have h2cap : t.capacity * 2 < U64 := by
          by_contra hge
          push_neg at hge
          have hmod : t.capacity * 2 % U64 = t.capacity * 2 - U64 := by
            rw [Nat.mod_eq_sub_mod hge, Nat.mod_eq_of_lt (by omega)]
          omega
        have hnceq : t.capacity * 2 % U64 = t.capacity * 2 :=
          Nat.mod_eq_of_lt h2cap
        have hcap1 : 0 < t1.capacity := by omega
        have hroom1 : numOccupied t1.entries < t1.capacity := by
          rw [hocc1, hocc]
          omega
        obtain ⟨out, hse, houtlen, hcases⟩ :=
          ht_set_entry_step v t1.length sOk hcap1 hentlen1 hPI1 hND1 hroom1
        have hstep : (if t.length ≥ t.capacity / 2 then ht_expand true t
            else some (true, t)) = some (true, t1) := by
          rw [if_pos hthr]
          exact hexp
        have hrun : ht_set true sOk (some t) (some k) v =
            some (some ⟨out.entries, t1.capacity, out.length⟩, out.ret) := by
          rw [ht_set_reduce true sOk t t1 k v hv hstep, hse]
        have hpow : ∃ m2, 4 ≤ m2 ∧ t1.capacity = 2 ^ m2 := by
          refine ⟨m + 1, by omega, ?_⟩
          rw [hcap', hnceq, hcapm, pow_succ]
        have hcapU1 : t1.capacity < U64 := by omega
        rcases hcases with
          ⟨hpres, houtl, houtr, hPI2, hND2, hocc2, hmap2⟩ |
          ⟨habs, hsOk, houtl, houtr, hPI2, hND2, hocc2, hmap2⟩ |
          ⟨habs, hsOk, houteq⟩
        · -- update in place after growth
          refine ⟨⟨out.entries, t1.capacity, out.length⟩, out.ret, hrun,
            ⟨houtlen, hpow, hcapU1, ?_, ?_, hPI2, hND2⟩, by simpa using hle,
            ?_⟩
          · show numOccupied out.entries = out.length
            rw [hocc2, hocc1, hocc, houtl, hlen1]
          · show out.length * 2 ≤ t1.capacity
            rw [houtl, hlen1]
            omega
          · refine Or.inr ⟨houtr, Or.inl ⟨?_, by
              show out.length = t.length
              rw [houtl, hlen1], ?_⟩⟩
            · obtain ⟨v0, hv0⟩ := hpres
              exact ⟨v0, (hmap1 k v0).mp hv0⟩
            · intro k2 v2
              rw [hmap2 k2 v2, hmap1 k2 v2]
        · -- fresh insert after growth
          refine ⟨⟨out.entries, t1.capacity, out.length⟩, out.ret, hrun,
            ⟨houtlen, hpow, hcapU1, ?_, ?_, hPI2, hND2⟩, by simpa using hle,
            ?_⟩
          · show numOccupied out.entries = out.length
            rw [hocc2, hocc1, hocc, houtl, hlen1]
          · show out.length * 2 ≤ t1.capacity
            rw [houtl, hlen1]
            omega
          · refine Or.inr ⟨houtr, Or.inr ⟨?_, by
              show out.length = t.length + 1
              rw [houtl, hlen1], ?_⟩⟩
            · rw [absentKey_iff] at habs ⊢
              intro v2 hcon
              exact habs v2 ((hmap1 k v2).mpr hcon)
            · intro k2 v2
              rw [hmap2 k2 v2, hmap1 k2 v2]
        · -- strdup failure after growth: NULL return, pairs preserved
          refine ⟨⟨out.entries, t1.capacity, out.length⟩, out.ret, hrun,
            ?_, by simpa using hle, ?_⟩
          · rw [houteq]
            refine ⟨hentlen1, hpow, hcapU1, ?_, ?_, hPI1, hND1⟩
            · show numOccupied t1.entries = t1.length
              rw [hocc1, hocc, hlen1]
            · show t1.length * 2 ≤ t1.capacity
              rw [hlen1]
              omega
          · refine Or.inl ⟨by rw [houteq], by rw [houteq]; exact hlen1, ?_⟩
            intro k2 v2
            rw [houteq]
            exact hmap1 k2 v2
  · -- no growth needed
    have hstep : (if t.length ≥ t.capacity / 2 then ht_expand aOk t
        else some (true, t)) = some (true, t) := by
      rw [if_neg hthr]
    have hroom : numOccupied t.entries < t.capacity := by
      rw [hocc]
      omega
    obtain ⟨out, hse, houtlen, hcases⟩ :=
      ht_set_entry_step v t.length sOk hcap hlen hPI hND hroom
    have hrun : ht_set aOk sOk (some t) (some k) v =
        some (some ⟨out.entries, t.capacity, out.length⟩, out.ret) := by
      rw [ht_set_reduce aOk sOk t t k v hv hstep, hse]
    rcases hcases with
      ⟨hpres, houtl, houtr, hPI2, hND2, hocc2, hmap2⟩ |
      ⟨habs, hsOk, houtl, houtr, hPI2, hND2, hocc2, hmap2⟩ |
      ⟨habs, hsOk, houteq⟩
    · refine ⟨⟨out.entries, t.capacity, out.length⟩, out.ret, hrun,
        ⟨houtlen, ⟨m, hm, hcapm⟩, hcapU, ?_, ?_, hPI2, hND2⟩, le_refl _, ?_⟩
      · show numOccupied out.entries = out.length
        rw [hocc2, hocc, houtl]
      · show out.length * 2 ≤ t.capacity
        rw [houtl]
        omega
      · exact Or.inr ⟨houtr, Or.inl ⟨hpres, houtl, fun k2 v2 => hmap2 k2 v2⟩⟩
    · refine ⟨⟨out.entries, t.capacity, out.length⟩, out.ret, hrun,
        ⟨houtlen, ⟨m, hm, hcapm⟩, hcapU, ?_, ?_, hPI2, hND2⟩, le_refl _, ?_⟩
      · show numOccupied out.entries = out.length
        rw [hocc2, hocc, houtl]
      · show out.length * 2 ≤ t.capacity
        rw [houtl]
        omega
      · exact Or.inr ⟨houtr, Or.inr ⟨habs, houtl, fun k2 v2 => hmap2 k2 v2⟩⟩
    · refine ⟨⟨out.entries, t.capacity, out.length⟩, out.ret, hrun, ?_,
        le_refl _, ?_⟩
      · rw [houteq]
        exact hInv'
      · exact Or.inl ⟨by rw [houteq], by rw [houteq], by
          rw [houteq]
          exact fun _ _ => Iff.rfl⟩

/-- A successful ht_set (non-NULL return) implies a non-NULL value
argument. -/
theorem ht_set_success_nonzero {aOk sOk : Bool} {t t' : ht} {k r : List Nat}
    {v : Nat}
    (h : ht_set aOk sOk (some t) (some k) v = some (some t', some r)) :
    v ≠ 0 := by
  intro hv
  subst hv
  have h2 : (some (some t, none) :
      Option (Option ht × Option (List Nat))) = some (some t', some r) := h
  have h3 := congrArg Prod.snd (Option.some.inj h2)
  cases h3

/-- Every ht_set call on a valid table keeps the table well-formed. -/
theorem ht_set_inv {aOk sOk : Bool} {t t1 : ht} {k : Option (List Nat)}
    {v : Nat} {r : Option (List Nat)} (hInv : Inv t)
    (hset : ht_set aOk sOk (some t) k v = some (some t1, r)) : Inv t1 := by
  rcases k with _ | k
  · have h : (some (some t, none) :
        Option (Option ht × Option (List Nat))) = some (some t1, r) := hset
    have h2 := congrArg Prod.fst (Option.some.inj h)
    rw [← Option.some.inj h2]
    exact hInv
  · by_cases hv : v = 0
    · subst hv
      have h : (some (some t, none) :
          Option (Option ht × Option (List Nat))) = some (some t1, r) := hset
      have h2 := congrArg Prod.fst (Option.some.inj h)
      rw [← Option.some.inj h2]
      exact hInv
    · obtain ⟨p, r2, hrun, hInvp, _, _⟩ := ht_set_total aOk sOk t k v hInv hv
      rw [hrun] at hset
      have h2 := congrArg Prod.fst (Option.some.inj hset)
      rw [← Option.some.inj h2]
      exact hInvp

/-- Every table reachable through the public interface is well-formed. -/
theorem reachable_inv {t : ht} (h : Reachable t) : Inv t := by
  induction h with
  | create =>
    exact ⟨by decide, ⟨4, by omega, by decide⟩, by decide, by decide,
      by decide, by decide, by decide⟩
  | set t aOk sOk k v t' r hreach hset ih => exact ht_set_inv ih hset

/-! The iterator scan loop. -/

theorem ht_next_loop_zero (t : ht) (i : Nat) :
    ht_next_loop t 0 i = ⟨i, none, 0, false⟩ := rfl

theorem ht_next_loop_end {t : ht} {i : Nat} (f : Nat) (hi : t.capacity ≤ i) :
    ht_next_loop t f i = ⟨i, none, 0, false⟩ := by
  cases f with
  | zero => rfl
  | succ f2 =>
    simp only [ht_next_loop]
    rw [if_neg (by omega)]

theorem ht_next_loop_skip {t : ht} {i : Nat} (f : Nat) (hi : i < t.capacity)
    (hk : (t.entries.getD i emptyEntry).key = none) :
    ht_next_loop t (f + 1) i = ht_next_loop t f (i + 1) := by
  simp only [ht_next_loop]
  rw [if_pos hi, hk]

theorem ht_next_loop_found {t : ht} {i : Nat} (f : Nat) (hi : i < t.capacity)
    {kk : List Nat} (hk : (t.entries.getD i emptyEntry).key = some kk) :
    ht_next_loop t (f + 1) i =
      ⟨i + 1, some kk, (t.entries.getD i emptyEntry).value, true⟩ := by
  simp only [ht_next_loop]
  rw [if_pos hi, hk]

/-- When the scan loop reports exhaustion (with enough fuel to reach the end
of the array) it has cleared the key and value and moved the index to the
end. -/
theorem ht_next_loop_exhausted {t : ht} :
    ∀ f i, t.capacity ≤ f + i → (ht_next_loop t f i).found = false →
      (ht_next_loop t f i).key = none ∧ (ht_next_loop t f i).value = 0 ∧
      t.capacity ≤ (ht_next_loop t f i).index := by
  intro f
  induction f with
  | zero =>
    intro i hfi _
    refine ⟨rfl, rfl, ?_⟩
    show t.capacity ≤ i
    omega
  | succ f2 ih =>
    intro i hfi hf
    by_cases hi : i < t.capacity
    · rcases hk : (t.entries.getD i emptyEntry).key with _ | kk
      · rw [ht_next_loop_skip f2 hi hk] at hf ⊢
        exact ih (i + 1) (by omega) hf
      · rw [ht_next_loop_found f2 hi hk] at hf
        cases hf
    · rw [ht_next_loop_end (f2 + 1) (by omega)]
      refine ⟨rfl, rfl, ?_⟩
      show t.capacity ≤ i
      omega

/-- Scan outcome when no occupied slot remains at or after the index. -/
theorem ht_next_loop_none_found {t : ht} :
    ∀ f i, (∀ j, i ≤ j → j < t.capacity →
      (t.entries.getD j emptyEntry).key = none) →
      (ht_next_loop t f i).found = false := by
  intro f
  induction f with
  | zero =>
    intro i _
    rfl
  | succ f2 ih =>
    intro i hnone
    by_cases hi : i < t.capacity
    · rw [ht_next_loop_skip f2 hi (hnone i (le_refl _) hi)]
      exact ih (i + 1) (fun j hj hj2 => hnone j (by omega) hj2)
    · rw [ht_next_loop_end (f2 + 1) (by omega)]

/-- Scan outcome at the first occupied slot at or after the index. -/
theorem ht_next_loop_first_found {t : ht} {kk : List Nat} :
    ∀ f i i0, i ≤ i0 → i0 < t.capacity → i0 - i < f →
      (t.entries.getD i0 emptyEntry).key = some kk →
      (∀ j, i ≤ j → j < i0 → (t.entries.getD j emptyEntry).key = none) →
      ht_next_loop t f i =
        ⟨i0 + 1, some kk, (t.entries.getD i0 emptyEntry).value, true⟩ := by
  intro f
  induction f with
  | zero =>
    intro i i0 _ _ hfi _ _
    omega
  | succ f2 ih =>
    intro i i0 hle hi0 hfi hk hnone
    by_cases hii : i = i0
    · rw [hii]
      exact ht_next_loop_found f2 hi0 hk
    · rw [ht_next_loop_skip f2 (by omega) (hnone i (le_refl _) (by omega))]
      exact ih (i + 1) i0 (by omega) hi0 (by omega) hk
        (fun j hj hj2 => hnone j (by omega) hj2)

/-! The pairs reported by a full iteration are the occupied pairs of the
store in slot order. -/

theorem pairsOf_length (l : List ht_entry) :
    (pairsOf l).length = numOccupied l := by
  induction l with
  | nil => rfl
  | cons e rest ih =>
    unfold pairsOf numOccupied at ih ⊢
    rw [List.filterMap_cons, List.countP_cons]
    rcases hek : e.key with _ | k
    · simp [ih, hek]
    · simp [ih, hek]

theorem entry_ext {e : ht_entry} {k : List Nat} {v : Nat}
    (hk : e.key = some k) (hv : e.value = v) : e = ⟨some k, v⟩ := by
  rw [← hk, ← hv]

theorem pairsOf_cons_none {e : ht_entry} {l : List ht_entry}
    (hek : e.key = none) : pairsOf (e :: l) = pairsOf l := by
  unfold pairsOf
  apply List.filterMap_cons_none
  simp [hek]

theorem pairsOf_cons_some {e : ht_entry} {l : List ht_entry} {k : List Nat}
    (hek : e.key = some k) :
    pairsOf (e :: l) = (k, e.value) :: pairsOf l := by
  unfold pairsOf
  apply List.filterMap_cons_some
  simp [hek]

theorem mem_pairsOf {l : List ht_entry} {k : List Nat} {v : Nat} :
    (k, v) ∈ pairsOf l ↔ mapsTo l k v := by
  unfold pairsOf
  rw [List.mem_filterMap]
  constructor
  · rintro ⟨e, he, hfe⟩
    rcases hek : e.key with _ | k2
    · rw [hek] at hfe
      simp at hfe
    · rw [hek] at hfe
      have hfe2 : (k2, e.value) = (k, v) := Option.some.inj hfe
      injection hfe2 with h1 h2
      obtain ⟨j, hj, hje⟩ := List.mem_iff_getElem.mp he
      refine ⟨j, hj, ?_⟩
      rw [List.getD_eq_getElem _ _ hj, hje]
      exact entry_ext (by rw [hek, h1]) h2
  · rintro ⟨j, hj, hje⟩
    refine ⟨⟨some k, v⟩, ?_, rfl⟩
    rw [← hje]
    exact List.mem_iff_getElem.mpr ⟨j, hj, (List.getD_eq_getElem _ _ hj).symm⟩

theorem pairsOf_keys_nodup {l : List ht_entry} (h : NoDupKeys l) :
    ((pairsOf l).map Prod.fst).Nodup := by
  induction l with
  | nil => simp [pairsOf]
  | cons e rest ih =>
    have hrest := ih (noDupKeys_tail h)
    rcases hek : e.key with _ | k
    · rw [pairsOf_cons_none hek]
      exact hrest
    · rw [pairsOf_cons_some hek, List.map_cons, List.nodup_cons]
      refine ⟨?_, hrest⟩
      intro hmem
      obtain ⟨p, hp, hpk⟩ := List.mem_map.mp hmem
      obtain ⟨p1, p2⟩ := p
      have hpk2 : p1 = k := hpk
      subst hpk2
      obtain ⟨j, hj, hje⟩ := mem_pairsOf.mp hp
      exact noDupKeys_head h hek j hj (by rw [hje])

theorem pairsOf_drop_none {t : ht} :
    ∀ i, (∀ j, i ≤ j → j < t.entries.length →
      (t.entries.getD j emptyEntry).key = none) →
      pairsOf (t.entries.drop i) = [] := by
  suffices h : ∀ n i, t.entries.length - i ≤ n →
      (∀ j, i ≤ j → j < t.entries.length →
        (t.entries.getD j emptyEntry).key = none) →
      pairsOf (t.entries.drop i) = [] by
    intro i
    exact h (t.entries.length - i) i (le_refl _)
  intro n
  induction n with
  | zero =>
    intro i hn _
    rw [List.drop_eq_nil_of_le (by omega)]
    rfl
  | succ nn ih =>
    intro i hn hnone
    by_cases hi : i < t.entries.length
    · rw [List.drop_eq_getElem_cons hi]
      have hk : t.entries[i].key = none := by
        have h2 := hnone i (le_refl _) hi
        rwa [List.getD_eq_getElem _ _ hi] at h2
      rw [pairsOf_cons_none hk]
      exact ih (i + 1) (by omega) (fun j hj hj2 => hnone j (by omega) hj2)
    · rw [List.drop_eq_nil_of_le (by omega)]
      rfl

theorem pairsOf_drop_found {t : ht} {i0 : Nat} {kk : List Nat}
    (hi0 : i0 < t.entries.length)
    (hk : (t.entries.getD i0 emptyEntry).key = some kk) :
    ∀ i, i ≤ i0 →
      (∀ j, i ≤ j → j < i0 → (t.entries.getD j emptyEntry).key = none) →
      pairsOf (t.entries.drop i) =
        (kk, (t.entries.getD i0 emptyEntry).value) ::
          pairsOf (t.entries.drop (i0 + 1)) := by
  suffices h : ∀ n i, i0 - i ≤ n → i ≤ i0 →
      (∀ j, i ≤ j → j < i0 → (t.entries.getD j emptyEntry).key = none) →
      pairsOf (t.entries.drop i) =
        (kk, (t.entries.getD i0 emptyEntry).value) ::
          pairsOf (t.entries.drop (i0 + 1)) by
    intro i h1 h2
    exact h (i0 - i) i (le_refl _) h1 h2
  have hcons : pairsOf (t.entries.drop i0) =
      (kk, (t.entries.getD i0 emptyEntry).value) ::
        pairsOf (t.entries.drop (i0 + 1)) := by
    rw [List.drop_eq_getElem_cons hi0]
    have hk2 : t.entries[i0].key = some kk := by
      rwa [List.getD_eq_getElem _ _ hi0] at hk
    rw [pairsOf_cons_some hk2, List.getD_eq_getElem _ _ hi0]
  intro n
  induction n with
  | zero =>
    intro i hn hle _
    have hii : i = i0 := by omega
    rw [hii]
    exact hcons
  | succ nn ih =>
    intro i hn hle hnone
    by_cases hii : i = i0
    · rw [hii]
      exact hcons
    · have hi : i < t.entries.length := by omega
      rw [List.drop_eq_getElem_cons hi]
      have hknone : t.entries[i].key = none := by
        have h2 := hnone i (le_refl _) (by omega)
        rwa [List.getD_eq_getElem _ _ hi] at h2
      rw [pairsOf_cons_none hknone]
      exact ih (i + 1) (by omega) (by omega)
        (fun j hj hj2 => hnone j (by omega) hj2)

theorem drainIter_succ_found (f : Nat) (it it2 : hti) (k2 : List Nat)
    (hnext : ht_next (some it) = (some it2, true)) (hkey : it2.key = some k2) :
    drainIter (f + 1) it = (k2, it2.value) :: drainIter f it2 := by
  have h1 : drainIter (f + 1) it =
      (match it2.key with
       | some k3 => (k3, it2.value) :: drainIter f it2
       | none => []) := by
    show (match ht_next (some it) with
      | (some it3, true) =>
        (match it3.key with
         | some k3 => (k3, it3.value) :: drainIter f it3
         | none => [])
      | _ => []) =
      (match it2.key with
       | some k3 => (k3, it2.value) :: drainIter f it2
       | none => [])
    rw [hnext]
  rw [h1, hkey]

theorem drainIter_succ_done (f : Nat) (it it2 : hti)
    (hnext : ht_next (some it) = (some it2, false)) :
    drainIter (f + 1) it = [] := by
  show (match ht_next (some it) with
    | (some it3, true) =>
      (match it3.key with
       | some k3 => (k3, it3.value) :: drainIter f it3
       | none => [])
    | _ => []) = []
  rw [hnext]

/-- A drained iterator reports exactly the occupied pairs of the remaining
slots, provided the fuel exceeds their number. -/
theorem drainIter_spec {t : ht} (hlen : t.entries.length = t.capacity) :
    ∀ (fuel : Nat) (i : Nat) (k0 : Option (List Nat)) (v0 : Nat),
      (pairsOf (t.entries.drop i)).length < fuel →
      drainIter fuel ⟨some t, i, k0, v0⟩ = pairsOf (t.entries.drop i) := by
  intro fuel
  induction fuel with
  | zero =>
    intro i k0 v0 hf
    omega
  | succ f ih =>
    intro i k0 v0 hf
    by_cases hocc : ∃ j, i ≤ j ∧ j < t.capacity ∧
      (t.entries.getD j emptyEntry).key ≠ none
    · have hex : ∃ j, i ≤ j ∧ j < t.capacity ∧
          (t.entries.getD j emptyEntry).key ≠ none := hocc
      have hi0 := Nat.find_spec hex
      obtain ⟨hi0le, hi0lt, hi0k⟩ := hi0
      rcases hk : (t.entries.getD (Nat.find hex) emptyEntry).key with _ | kk
      · exact absurd hk hi0k
      · have hnone : ∀ j, i ≤ j → j < Nat.find hex →
            (t.entries.getD j emptyEntry).key = none := by
          intro j hj hj2
          have hmin := Nat.find_min hex hj2
          push_neg at hmin
          exact hmin hj (by omega)
        have hloop := ht_next_loop_first_found (t.capacity - i) i (Nat.find hex)
          hi0le hi0lt (by omega) hk hnone
        have hnext : ht_next (some (⟨some t, i, k0, v0⟩ : hti)) =
            (some ⟨some t, Nat.find hex + 1, some kk,
              (t.entries.getD (Nat.find hex) emptyEntry).value⟩, true) := by
          show (some (⟨some t, (ht_next_loop t (t.capacity - i) i).index,
            (ht_next_loop t (t.capacity - i) i).key,
            (ht_next_loop t (t.capacity - i) i).value⟩ : hti),
            (ht_next_loop t (t.capacity - i) i).found) = _
          rw [hloop]
        have hfind : Nat.find hex < t.entries.length := by omega
        have hpairs := @pairsOf_drop_found t (Nat.find hex) kk
          hfind hk i hi0le (fun j hj hj2 => hnone j hj hj2)
        rw [drainIter_succ_found f _ _ kk hnext rfl, hpairs]
        congr 1
        apply ih
        rw [hpairs] at hf
        simpa using hf
    · push_neg at hocc
      have hnone : ∀ j, i ≤ j → j < t.capacity →
          (t.entries.getD j emptyEntry).key = none := hocc
      have hfound := ht_next_loop_none_found (t.capacity - i) i hnone
      have hpairs := pairsOf_drop_none i
        (fun j hj hj2 => hnone j hj (hlen ▸ hj2))
      rw [hpairs]
      have hnext2 : ht_next (some (⟨some t, i, k0, v0⟩ : hti)) =
          (some ⟨some t, (ht_next_loop t (t.capacity - i) i).index,
            (ht_next_loop t (t.capacity - i) i).key,
            (ht_next_loop t (t.capacity - i) i).value⟩, false) := by
        rw [← hfound]
        rfl
      exact drainIter_succ_done f _ _ hnext2

/-- Draining a fresh iterator of a table with a free slot reports exactly
the occupied pairs of the store, in slot order. -/
theorem drainTable_spec {t : ht} (hlen : t.entries.length = t.capacity)
    (hcount : numOccupied t.entries < t.capacity) :
    drainTable t = pairsOf t.entries := by
  have h := drainIter_spec hlen t.capacity 0 none 0 (by
    rw [List.drop_zero, pairsOf_length]
    omega)
  unfold drainTable ht_iterator
  rw [h, List.drop_zero]

/-- Running a list of ht_set calls: every call must return a stored key;
with pairwise distinct keys each call is a fresh insert, so the final table
holds exactly the accumulated pairs. -/
theorem setAll_spec :
    ∀ (L : List (List Nat × Nat)) (t : ht) (P : List (List Nat × Nat)),
      Inv t → (∀ k v, mapsTo t.entries k v ↔ (k, v) ∈ P) →
      ((P ++ L).map Prod.fst).Nodup →
      ∀ tf, setAll L t = some tf →
        Inv tf ∧ tf.length = t.length + L.length ∧
        (∀ k v, mapsTo tf.entries k v ↔ (k, v) ∈ P ++ L) := by
  intro L
  induction L with
  | nil =>
    intro t P hInv hmap hnodup tf hrun
    have ht : t = tf := Option.some.inj hrun
    subst ht
    refine ⟨hInv, by simp, ?_⟩
    intro k v
    rw [hmap k v]
    simp
  | cons p rest ih =>
    obtain ⟨k, v⟩ := p
    intro t P hInv hmap hnodup tf hrun
    by_cases hv : v = 0
    · subst hv
      have hz : setAll (((k, 0)) :: rest) t = none := rfl
      rw [hz] at hrun
      cases hrun
    · obtain ⟨p2, r, hsetrun, hInv2, _, houtcome⟩ :=
        ht_set_total true true t k v hInv hv
      have hred : setAll ((k, v) :: rest) t =
          (match ht_set true true (some t) (some k) v with
           | some (some t', some _) => setAll rest t'
           | _ => none) := rfl
      rw [hred, hsetrun] at hrun
      rcases r with _ | rk
      · cases hrun
      · have hrest : setAll rest p2 = some tf := hrun
        have hknotinP : k ∉ P.map Prod.fst := by
          intro hkP
          rw [List.map_append] at hnodup
          rw [List.nodup_append] at hnodup
          refine hnodup.2.2 hkP ?_
          rw [List.map_cons]
          exact List.mem_cons_self _ _
        have habsk : absentKey t.entries k := by
          rw [absentKey_iff]
          intro v0 hv0
          have hPmem := (hmap k v0).mp hv0
          exact hknotinP (List.mem_map.mpr ⟨(k, v0), hPmem, rfl⟩)
        rcases houtcome with ⟨hnone, _, _⟩ | ⟨_, hcase⟩
        · cases hnone
        · rcases hcase with ⟨⟨v0, hv0map⟩, _, _⟩ | ⟨_, hlen2, hmap2⟩
          · exact absurd hv0map ((absentKey_iff.mp habsk) v0)
          · have hmapP2 : ∀ k2 v2, mapsTo p2.entries k2 v2 ↔
                (k2, v2) ∈ P ++ [(k, v)] := by
              intro k2 v2
              rw [hmap2 k2 v2, List.mem_append, List.mem_singleton]
              constructor
              · rintro (⟨h1, h2⟩ | h)
                · right
                  rw [h1, h2]
                · exact Or.inl ((hmap k2 v2).mp h)
              · rintro (h | h)
                · exact Or.inr ((hmap k2 v2).mpr h)
                · left
                  injection h with h1 h2
                  exact ⟨h1, h2⟩
            have hnodup2 : (((P ++ [(k, v)]) ++ rest).map Prod.fst).Nodup := by
              rw [← List.append_cons]
              exact hnodup
            obtain ⟨hInvF, hlenF, hmapF⟩ :=
              ih p2 (P ++ [(k, v)]) hInv2 hmapP2 hnodup2 tf hrest
            refine ⟨hInvF, ?_, ?_⟩
            · rw [hlenF, hlen2]
              simp
              omega
            · intro k2 v2
              rw [hmapF k2 v2, ← List.append_cons]

/-! Claim theorems. -/

/-- C1: for every table t (whose capacity field equals its array length, as
the data model requires of every table), key k and value v, if
ht_set(t, k, v) succeeds — returns a stored key — then ht_get of k on the
resulting table returns v. -/
theorem spec_round_trip (aOk sOk : Bool) (t t' : ht) (k r : List Nat) (v : Nat)
    (hlen : t.entries.length = t.capacity)
    (hset : ht_set aOk sOk (some t) (some k) v = some (some t', some r)) :
    ht_get (some t') (some k) = some v :=
  ht_set_success_get hlen hset

/-- Witness for C1: setting key [97] to 1 on a fresh table and reading it
back. -/
theorem spec_round_trip_witness :
    ht_create.entries.length = ht_create.capacity ∧
    ht_set true true (some ht_create) (some [97]) 1 =
      some (some sampleT1, some [97]) ∧
    ht_get (some sampleT1) (some [97]) = some 1 :=
  ⟨by decide, by decide,
    spec_round_trip true true ht_create sampleT1 [97] [97] 1 (by decide)
      (by decide)⟩

/-- C2: a successful expansion of a well-formed store reinserts every
occupied entry without touching the length field, the population of the new
store equals that of the old one, and every stored pair is still found by
ht_get afterwards. -/
theorem spec_growth_preserves (aOk : Bool) (t t' : ht) (k : List Nat) (v : Nat)
    (hcap : 0 < t.capacity) (hlen : t.entries.length = t.capacity)
    (hPI : ProbeInv t.capacity t.entries) (hND : NoDupKeys t.entries)
    (hexp : ht_expand aOk t = some (true, t'))
    (hmap : mapsTo t.entries k v) :
    t'.length = t.length ∧
    numOccupied t'.entries = numOccupied t.entries ∧
    ht_get (some t') (some k) = some v := by
  obtain ⟨hcap', hle, hlen', hentlen, hPI', hND', hocc', hmap'⟩ :=
    ht_expand_spec hcap hlen hPI hND hexp
  exact ⟨hlen', hocc', ht_get_found (by omega) hentlen hPI' hND'
    ((hmap' k v).mpr hmap)⟩

/-- Witness for C2: expanding a one-entry table from capacity 16 to 32. -/
theorem spec_growth_preserves_witness :
    (0 < sampleT1.capacity ∧ sampleT1.entries.length = sampleT1.capacity ∧
      ProbeInv sampleT1.capacity sampleT1.entries ∧
      NoDupKeys sampleT1.entries ∧
      ht_expand true sampleT1 = some (true, sampleT1x32) ∧
      mapsTo sampleT1.entries [97] 1) ∧
    (sampleT1x32.length = sampleT1.length ∧
      numOccupied sampleT1x32.entries = numOccupied sampleT1.entries ∧
      ht_get (some sampleT1x32) (some [97]) = some 1) :=
  ⟨⟨by decide, by decide, by decide, by decide, by decide, by decide⟩,
    spec_growth_preserves true sampleT1 sampleT1x32 [97] 1 (by decide)
      (by decide) (by decide) (by decide) (by decide) (by decide)⟩

/-- C3: immediately after every successful ht_set on a reachable table, the
length is at most half the capacity. -/
theorem spec_load_factor (aOk sOk : Bool) (t t' : ht) (k r : List Nat)
    (v : Nat) (hreach : Reachable t)
    (hset : ht_set aOk sOk (some t) (some k) v = some (some t', some r)) :
    t'.length * 2 ≤ t'.capacity := by
  have hreach' : Reachable t' :=
    Reachable.set t aOk sOk (some k) v t' (some r) hreach hset
  exact (reachable_inv hreach').2.2.2.2.1

/-- Witness for C3: the first insertion into a fresh table. -/
theorem spec_load_factor_witness :
    Reachable ht_create ∧
    ht_set true true (some ht_create) (some [97]) 1 =
      some (some sampleT1, some [97]) ∧
    sampleT1.length * 2 ≤ sampleT1.capacity :=
  ⟨Reachable.create, by decide,
    spec_load_factor true true ht_create sampleT1 [97] [97] 1
      Reachable.create (by decide)⟩

/-- C4: two successful ht_set calls with the same key: the second call is an
in-place update that leaves the length unchanged, and ht_get then returns
the second value. -/
theorem spec_update_semantics (aOk1 sOk1 aOk2 sOk2 : Bool) (t t1 t2 : ht)
    (k r1 r2 : List Nat) (v1 v2 : Nat) (hreach : Reachable t)
    (hset1 : ht_set aOk1 sOk1 (some t) (some k) v1 = some (some t1, some r1))
    (hset2 : ht_set aOk2 sOk2 (some t1) (some k) v2 = some (some t2, some r2)) :
    t2.length = t1.length ∧ ht_get (some t2) (some k) = some v2 := by
  have hInv := reachable_inv hreach
  have hv1 : v1 ≠ 0 := ht_set_success_nonzero hset1
  obtain ⟨p, r, hrun, hInvp, _, houtcome⟩ :=
    ht_set_total aOk1 sOk1 t k v1 hInv hv1
  have hset1c := hset1
  rw [hrun] at hset1c
  have hpair := Option.some.inj hset1c
  have hp : p = t1 := Option.some.inj (congrArg Prod.fst hpair)
  have hr : r = some r1 := congrArg Prod.snd hpair
  rw [hp] at hInvp houtcome
  have hmapk : mapsTo t1.entries k v1 := by
    rcases houtcome with ⟨hnone, _, _⟩ | ⟨_, hcase⟩
    · rw [hr] at hnone
      cases hnone
    · rcases hcase with ⟨_, _, hmap2⟩ | ⟨_, _, hmap2⟩
      · exact (hmap2 k v1).mpr (Or.inl ⟨rfl, rfl⟩)
      · exact (hmap2 k v1).mpr (Or.inl ⟨rfl, rfl⟩)
  have hv2 : v2 ≠ 0 := ht_set_success_nonzero hset2
  obtain ⟨q, r', hrun2, hInvq, _, houtcome2⟩ :=
    ht_set_total aOk2 sOk2 t1 k v2 hInvp hv2
  have hset2c := hset2
  rw [hrun2] at hset2c
  have hpair2 := Option.some.inj hset2c
  have hq : q = t2 := Option.some.inj (congrArg Prod.fst hpair2)
  have hr2 : r' = some r2 := congrArg Prod.snd hpair2
  rw [hq] at houtcome2
  refine ⟨?_, ht_set_success_get hInvp.1 hset2⟩
  rcases houtcome2 with ⟨hnone, _, _⟩ | ⟨_, hcase2⟩
  · rw [hr2] at hnone
    cases hnone
  · rcases hcase2 with ⟨_, hlen2, _⟩ | ⟨habs, _, _⟩
    · exact hlen2
    · exact absurd hmapk ((absentKey_iff.mp habs) v1)

/-- Witness for C4: setting key [97] to 1 and then to 2 on a fresh table. -/
theorem spec_update_semantics_witness :
    Reachable ht_create ∧
    ht_set true true (some ht_create) (some [97]) 1 =
      some (some sampleT1, some [97]) ∧
    ht_set true true (some sampleT1) (some [97]) 2 =
      some (some sampleT2, some [97]) ∧
    (sampleT2.length = sampleT1.length ∧
      ht_get (some sampleT2) (some [97]) = some 2) :=
  ⟨Reachable.create, by decide, by decide,
    spec_update_semantics true true true true ht_create sampleT1 sampleT2
      [97] [97] [97] 1 2 Reachable.create (by decide) (by decide)⟩

/-- C5: when growth is triggered and fails (size_t overflow of the doubled
capacity, or calloc failure), ht_set returns NULL and the table — entries,
capacity and length — is exactly the one passed in. -/
theorem spec_growth_failure (aOk sOk : Bool) (t : ht) (k : List Nat) (v : Nat)
    (hv : v ≠ 0) (hthr : t.length ≥ t.capacity / 2)
    (hfail : t.capacity * 2 % U64 < t.capacity ∨ aOk = false) :
    ht_set aOk sOk (some t) (some k) v = some (some t, none) := by
  have hexp : ht_expand aOk t = some (false, t) := by
    rcases hfail with h | h
    · exact ht_expand_fail_overflow aOk t h
    · by_cases hover : t.capacity * 2 % U64 < t.capacity
      · exact ht_expand_fail_overflow aOk t hover
      · rw [h]
        exact ht_expand_fail_alloc t hover
  exact ht_set_reduce_fail aOk sOk t t k v hv
    (by rw [if_pos hthr]; exact hexp)

/-- Witness for C5: a table at the growth threshold with calloc failing. -/
theorem spec_growth_failure_witness :
    ((5 : Nat) ≠ 0 ∧ sampleHalf.length ≥ sampleHalf.capacity / 2 ∧
      (sampleHalf.capacity * 2 % U64 < sampleHalf.capacity ∨ false = false)) ∧
    ht_set false true (some sampleHalf) (some [1]) 5 =
      some (some sampleHalf, none) :=
  ⟨⟨by decide, by decide, Or.inr rfl⟩,
    spec_growth_failure false true sampleHalf [1] 5 (by decide) (by decide)
      (Or.inr rfl)⟩

/-- C6: a NULL table, key or (for ht_set) value makes each operation a
no-op returning its failure signal: ht_set returns NULL with the table
unchanged, ht_get returns NULL, ht_length returns 0. -/
theorem spec_invalid_args :
    (∀ (aOk sOk : Bool) (k : Option (List Nat)) (v : Nat),
      ht_set aOk sOk none k v = some (none, none)) ∧
    (∀ (aOk sOk : Bool) (t : ht) (v : Nat),
      ht_set aOk sOk (some t) none v = some (some t, none)) ∧
    (∀ (aOk sOk : Bool) (t : ht) (k : List Nat),
      ht_set aOk sOk (some t) (some k) 0 = some (some t, none)) ∧
    (∀ k, ht_get none k = some 0) ∧
    (∀ t, ht_get (some t) none = some 0) ∧
    ht_length none = 0 :=
  ⟨fun _ _ _ _ => rfl, fun _ _ _ _ => rfl, fun _ _ _ _ => rfl,
    fun _ => rfl, fun _ => rfl, rfl⟩

/-- C7: iterating an unmutated table built by N successful inserts of
distinct keys yields exactly N pairs, with pairwise distinct keys, each
pair being one of the inserted pairs (hence each value is the one most
recently — here uniquely — set for its key). -/
theorem spec_iteration (L : List (List Nat × Nat)) (t : ht)
    (hkeys : (L.map Prod.fst).Nodup)
    (hrun : setAll L ht_create = some t) :
    (drainTable t).length = L.length ∧
    ((drainTable t).map Prod.fst).Nodup ∧
    drainTable t ⊆ L := by
  have hInvC : Inv ht_create := reachable_inv Reachable.create
  have hmapC : ∀ k v, mapsTo ht_create.entries k v ↔
      (k, v) ∈ ([] : List (List Nat × Nat)) := by
    intro k v
    constructor
    · rintro ⟨j, hj, hje⟩
      rw [show ht_create.entries = List.replicate 16 emptyEntry from rfl,
        getD_replicate_empty] at hje
      cases congrArg ht_entry.key hje
    · intro h
      simp at h
  obtain ⟨hInvF, hlenF, hmapF⟩ :=
    setAll_spec L ht_create [] hInvC hmapC (by simpa using hkeys) t hrun
  obtain ⟨hlenT, ⟨m, hm, hcm⟩, hU, hoccT, hloadT, hPIT, hNDT⟩ := hInvF
  have hcapT : 0 < t.capacity := by
    rw [hcm]
    positivity
  have hcount : numOccupied t.entries < t.capacity := by
    rw [hoccT]
    omega
  have hdrain := drainTable_spec hlenT hcount
  refine ⟨?_, ?_, ?_⟩
  · rw [hdrain, pairsOf_length, hoccT, hlenF]
    have hc0 : ht_create.length = 0 := rfl
    omega
  · rw [hdrain]
    exact pairsOf_keys_nodup hNDT
  · intro p hp
    rw [hdrain] at hp
    obtain ⟨k2, v2⟩ := p
    have hmem := (hmapF k2 v2).mp (mem_pairsOf.mp hp)
    simpa using hmem

/-- Witness for C7: inserting [97] and [98] and draining the iterator. -/
theorem spec_iteration_witness :
    (([([97], 1), ([98], 2)].map Prod.fst).Nodup ∧
      setAll [([97], 1), ([98], 2)] ht_create = some sampleT12) ∧
    ((drainTable sampleT12).length = ([([97], 1), ([98], 2)]).length ∧
      ((drainTable sampleT12).map Prod.fst).Nodup ∧
      drainTable sampleT12 ⊆ [([97], 1), ([98], 2)]) :=
  ⟨⟨by decide, by decide⟩,
    spec_iteration [([97], 1), ([98], 2)] sampleT12 (by decide) (by decide)⟩

/-- C8: when ht_next reports exhaustion on a cursor with a live table, the
cursor key and value are cleared, and any further ht_next call returns the
same exhausted cursor again: the exhausted state is terminal. -/
theorem spec_iterator_terminal (c c2 : hti) (t : ht)
    (hc : c._table = some t)
    (hnext : ht_next (some c) = (some c2, false)) :
    c2.key = none ∧ c2.value = 0 ∧ ht_next (some c2) = (some c2, false) := by
  have hred : ht_next (some c) =
      (some { c with
          _index := (ht_next_loop t (t.capacity - c._index) c._index).index,
          key := (ht_next_loop t (t.capacity - c._index) c._index).key,
          value := (ht_next_loop t (t.capacity - c._index) c._index).value },
        (ht_next_loop t (t.capacity - c._index) c._index).found) := by
    show (match c._table with
      | none => (some c, false)
      | some t2 =>
        (some { c with
            _index := (ht_next_loop t2 (t2.capacity - c._index) c._index).index,
            key := (ht_next_loop t2 (t2.capacity - c._index) c._index).key,
            value := (ht_next_loop t2 (t2.capacity - c._index) c._index).value },
          (ht_next_loop t2 (t2.capacity - c._index) c._index).found)) = _
    rw [hc]
  rw [hred] at hnext
  have h1 := congrArg Prod.fst hnext
  have h2 : (ht_next_loop t (t.capacity - c._index) c._index).found = false :=
    congrArg Prod.snd hnext
  obtain ⟨hkey, hval, hidx⟩ :=
    ht_next_loop_exhausted (t.capacity - c._index) c._index (by omega) h2
  have hc2 : c2 = { c with
      _index := (ht_next_loop t (t.capacity - c._index) c._index).index,
      key := (ht_next_loop t (t.capacity - c._index) c._index).key,
      value := (ht_next_loop t (t.capacity - c._index) c._index).value } :=
    (Option.some.inj h1).symm
  have hk2 : c2.key = none := by
    rw [hc2]
    exact hkey
  have hv2 : c2.value = 0 := by
    rw [hc2]
    exact hval
  refine ⟨hk2, hv2, ?_⟩
  have hct2 : c2._table = some t := by
    rw [hc2]
    exact hc
  have hidx2 : t.capacity ≤ c2._index := by
    rw [hc2]
    exact hidx
  have hfuel : t.capacity - c2._index = 0 := by omega
  have hred2 : ht_next (some c2) =
      (some { c2 with
          _index := (ht_next_loop t (t.capacity - c2._index) c2._index).index,
          key := (ht_next_loop t (t.capacity - c2._index) c2._index).key,
          value := (ht_next_loop t (t.capacity - c2._index) c2._index).value },
        (ht_next_loop t (t.capacity - c2._index) c2._index).found) := by
    show (match c2._table with
      | none => (some c2, false)
      | some t2 =>
        (some { c2 with
            _index := (ht_next_loop t2 (t2.capacity - c2._index) c2._index).index,
            key := (ht_next_loop t2 (t2.capacity - c2._index) c2._index).key,
            value := (ht_next_loop t2 (t2.capacity - c2._index) c2._index).value },
          (ht_next_loop t2 (t2.capacity - c2._index) c2._index).found)) = _
    rw [hct2]
  rw [hred2, hfuel, ht_next_loop_zero]
  rw [← hk2, ← hv2]

/-- Witness for C8: the iterator of a fresh empty table exhausts at once. -/
theorem spec_iterator_terminal_witness :
    ((ht_iterator (some ht_create))._table = some ht_create ∧
      ht_next (some (ht_iterator (some ht_create))) =
        (some ⟨some ht_create, 16, none, 0⟩, false)) ∧
    ((⟨some ht_create, 16, none, 0⟩ : hti).key = none ∧
      (⟨some ht_create, 16, none, 0⟩ : hti).value = 0 ∧
      ht_next (some (⟨some ht_create, 16, none, 0⟩ : hti)) =
        (some ⟨some ht_create, 16, none, 0⟩, false)) :=
  ⟨⟨rfl, by decide⟩,
    spec_iterator_terminal (ht_iterator (some ht_create))
      ⟨some ht_create, 16, none, 0⟩ ht_create rfl (by decide)⟩

/-- C9: on every reachable table the probe loops finish within capacity
slot inspections: ht_get and ht_set (growth included) always return a
result with the fuel set to the capacity. -/
theorem spec_termination (t : ht) (hreach : Reachable t) (k : List Nat)
    (v : Nat) (aOk sOk : Bool) :
    (ht_get (some t) (some k)).isSome ∧
    (ht_set aOk sOk (some t) (some k) v).isSome := by
  obtain ⟨hlen, ⟨m, hm, hcm⟩, hU, hocc, hload, hPI, hND⟩ := reachable_inv hreach
  have hInv : Inv t := ⟨hlen, ⟨m, hm, hcm⟩, hU, hocc, hload, hPI, hND⟩
  have hcap : 0 < t.capacity := by
    rw [hcm]
    positivity
  constructor
  · by_cases habs : absentKey t.entries k
    · have hempty : ∃ j, j < t.capacity ∧
          (t.entries.getD j emptyEntry).key = none := by
        apply exists_empty_slot hlen
        rw [hocc]
        omega
      rw [ht_get_missing hcap hlen habs hempty]
      rfl
    · unfold absentKey at habs
      push_neg at habs
      obtain ⟨i, hi, hk⟩ := habs
      have hmap : mapsTo t.entries k (t.entries.getD i emptyEntry).value :=
        ⟨i, hi, entry_ext hk rfl⟩
      rw [ht_get_found hcap hlen hPI hND hmap]
      rfl
  · by_cases hv : v = 0
    · subst hv
      have h0 : ht_set aOk sOk (some t) (some k) 0 = some (some t, none) := rfl
      rw [h0]
      rfl
    · obtain ⟨p, r, hrun, _⟩ := ht_set_total aOk sOk t k v hInv hv
      rw [hrun]
      rfl

/-- Witness for C9: lookups and insertions on the fresh table finish. -/
theorem spec_termination_witness :
    Reachable ht_create ∧
    ((ht_get (some ht_create) (some [97])).isSome ∧
      (ht_set true true (some ht_create) (some [97]) 5).isSome) :=
  ⟨Reachable.create,
    spec_termination ht_create Reachable.create [97] 5 true true⟩

/-- C10: ht_next on a NULL cursor, or on a cursor whose table pointer is
NULL (as produced by ht_iterator of a NULL table), reports exhaustion
without touching any entry store. -/
theorem spec_null_iterator :
    ht_next none = (none, false) ∧
    (∀ c : hti, c._table = none → ht_next (some c) = (some c, false)) ∧
    (ht_iterator none)._table = none := by
  refine ⟨rfl, ?_, rfl⟩
  intro c hc
  show (match c._table with
    | none => (some c, false)
    | some t2 =>
      (some { c with
          _index := (ht_next_loop t2 (t2.capacity - c._index) c._index).index,
          key := (ht_next_loop t2 (t2.capacity - c._index) c._index).key,
          value := (ht_next_loop t2 (t2.capacity - c._index) c._index).value },
        (ht_next_loop t2 (t2.capacity - c._index) c._index).found)) =
    (some c, false)
  rw [hc]

/-- Witness for C10: the iterator built on a NULL table. -/
theorem spec_null_iterator_witness :
    ht_next (some (ht_iterator none)) = (some (ht_iterator none), false) :=
  spec_null_iterator.2.1 (ht_iterator none) rfl

end HtC
